import Mathlib

/-!
Verification of the places-midpoint repository.

This file gives a shallow embedding of the algorithmic core of the
repository and settles the specification claims against it:

* the spherical geometric-median solver `geometricMedianOnSphere` and its
  helpers (src/midpoint.ts, lines 170-223);
* the registry reconciliation pipeline: reset of `current` flags, batch
  merge loop and stale-entry sweep (src/processPlaces.ts, lines 239-338);
* the per-URL retry wrapper `processUrlInTabWithRetry` and the scraping
  orchestration (src/midpoint.ts second module, lines 423-449 and 797-817);
* the controller's catch-block persistence (src/processPlaces.ts, lines
  425-428; src/midpoint.ts second module, lines 958-961);
* the coordinate deduplication via `toFixed(6)` string keys
  (src/processPlaces.ts, lines 387-394; src/midpoint.ts second module,
  lines 933-940).

JavaScript numbers are modelled as real numbers (exact arithmetic);
where character-level structure matters (the deduplication keys)
JavaScript strings are modelled as lists of characters.
-/

namespace PlacesMidpoint

open Real

/-- Latitude/longitude pair in degrees (the TS `LatLngLiteral` shape used
throughout src/midpoint.ts). -/
structure LatLng where
  lat : ℝ
  lng : ℝ

/-- 3-D vector (src/midpoint.ts, `type Vec3`). -/
structure Vec3 where
  x : ℝ
  y : ℝ
  z : ℝ

section Solver

open scoped Classical

/-- src/midpoint.ts line 170: `clamp(v, a, b) = Math.min(Math.max(v, a), b)`. -/
noncomputable def clamp (v a b : ℝ) : ℝ := min (max v a) b

/-- JS `Math.atan2 y x`, modelled as the argument of the complex number
`x + y·i` (principal value in `(-π, π]`, with `atan2 0 0 = 0` as in JS). -/
noncomputable def atan2 (y x : ℝ) : ℝ := Complex.arg ⟨x, y⟩

/-- src/midpoint.ts lines 174-178: map `(lat, lng)` in degrees to a unit
vector, `x = cos φ · cos λ`, `y = cos φ · sin λ`, `z = sin φ`. -/
noncomputable def llToVec (c : LatLng) : Vec3 :=
  let phi := c.lat * π / 180
  let lam := c.lng * π / 180
  ⟨Real.cos phi * Real.cos lam, Real.cos phi * Real.sin lam, Real.sin phi⟩

/-- src/midpoint.ts lines 180-186: convert a vector back to degrees,
`lat = atan2(z, hypot(x, y))·180/π`, `lng = atan2(y, x)·180/π`. -/
noncomputable def vecToLl (v : Vec3) : LatLng :=
  let hyp := Real.sqrt (v.x ^ 2 + v.y ^ 2)
  ⟨atan2 v.z hyp * 180 / π, atan2 v.y v.x * 180 / π⟩

/-- src/midpoint.ts line 188: componentwise vector addition. -/
noncomputable def add (a b : Vec3) : Vec3 := ⟨a.x + b.x, a.y + b.y, a.z + b.z⟩

/-- src/midpoint.ts line 189: scalar multiple of a vector. -/
noncomputable def scale (v : Vec3) (k : ℝ) : Vec3 := ⟨v.x * k, v.y * k, v.z * k⟩

/-- src/midpoint.ts line 190: dot product. -/
noncomputable def dot (a b : Vec3) : ℝ := a.x * b.x + a.y * b.y + a.z * b.z

/-- src/midpoint.ts line 191: Euclidean norm `Math.hypot(x, y, z)`. -/
noncomputable def norm (v : Vec3) : ℝ := Real.sqrt (v.x ^ 2 + v.y ^ 2 + v.z ^ 2)

/-- src/midpoint.ts line 192: `normalise v = scale v (1 / norm v)` (no
guard against `norm v = 0`). -/
noncomputable def normalise (v : Vec3) : Vec3 := scale v (1 / norm v)

/-- The accumulation of `Σ w·q` and `Σ w` performed by the inner `for`
loop of `geometricMedianOnSphere` (src/midpoint.ts lines 206-215): for
each input point `pt`, set `q = llToVec pt`,
`ang = arccos (clamp (dot p q) (-1) 1)`, `w = 1 / max ang 1e-15`, and
accumulate `num` and `denom`. -/
noncomputable def weiszfeldStepAcc (p : Vec3) (coords : List LatLng) : Vec3 × ℝ :=
  coords.foldl
    (fun acc pt =>
      let q := llToVec pt
      let ang := Real.arccos (clamp (dot p q) (-1) 1)
      let w := 1 / max ang 1e-15
      (add acc.1 (scale q w), acc.2 + w))
    (⟨0, 0, 0⟩, 0)

/-- The `for (let k = 0; k < maxIter; k++)` loop of
`geometricMedianOnSphere` (src/midpoint.ts lines 205-220), with the
remaining iteration budget as fuel.  Each round computes
`pNext = normalise (scale num (1 / denom))`; if the angular distance
between `p` and `pNext` is below `tol` the loop breaks (returning `p`,
since the `break` happens before `p = pNext`), otherwise it continues
with `pNext`. -/
noncomputable def weiszfeldLoop (coords : List LatLng) (tol : ℝ) : Nat → Vec3 → Vec3
  | 0, p => p
  | fuel + 1, p =>
    let acc := weiszfeldStepAcc p coords
    let pNext := normalise (scale acc.1 (1 / acc.2))
    if Real.arccos (clamp (dot p pNext) (-1) 1) < tol then p
    else weiszfeldLoop coords tol fuel pNext

/-- src/midpoint.ts lines 195-223, `geometricMedianOnSphere`: empty input
returns the `(0, 0)` sentinel, a single point is returned unchanged, and
otherwise the Weiszfeld loop runs, seeded with
`normalise (coords.map(llToVec).reduce(add, 0))`. -/
noncomputable def geometricMedianOnSphere (coords : List LatLng)
    (tol : ℝ := 1e-10) (maxIter : Nat := 500) : LatLng :=
  match coords with
  | [] => ⟨0, 0⟩
  | [c] => c
  | _ =>
    let p0 := normalise ((coords.map llToVec).foldl add ⟨0, 0, 0⟩)
    vecToLl (weiszfeldLoop coords tol maxIter p0)

/-! ### Spec-modelled spherical Weiszfeld iteration (for claim C1)

The following definitions transcribe §4.4 of the spec word by word, to be
compared with the source-derived `geometricMedianOnSphere` above.  The
spec leaves open which of the two final estimates is returned when the
tolerance test fires ("Stop when the angular distance between successive
estimates < TOL"); stopping is read as: the iteration halts and the
current estimate stands. -/

/-- Modelled from the spec (§4.4 step 3): the angular distance
`θ = arccos(clamp(p·q, -1, 1))`. -/
noncomputable def specAngle (p q : Vec3) : ℝ := Real.arccos (clamp (dot p q) (-1) 1)

/-- Modelled from the spec (§4.4 step 3): the Weiszfeld weight
`w = 1/max(θ, ε)` with `ε = 1e-15`. -/
noncomputable def specWeight (p q : Vec3) : ℝ := 1 / max (specAngle p q) 1e-15

/-- Modelled from the spec (§4.4 step 3): the accumulated `Σ w·q` over
the input unit vectors. -/
noncomputable def specNum (p : Vec3) (qs : List Vec3) : Vec3 :=
  (qs.map fun q => scale q (specWeight p q)).foldl add ⟨0, 0, 0⟩

/-- Modelled from the spec (§4.4 step 3): the accumulated `Σ w`. -/
noncomputable def specDenom (p : Vec3) (qs : List Vec3) : ℝ :=
  (qs.map fun q => specWeight p q).foldl (· + ·) 0

/-- Modelled from the spec (§4.4 step 3): next estimate
`normalize(Σw·q / Σw)`. -/
noncomputable def specStep (p : Vec3) (qs : List Vec3) : Vec3 :=
  normalise (scale (specNum p qs) (1 / specDenom p qs))

/-- Modelled from the spec (§4.4 steps 3-4): iterate up to `MAX_ITER`
times; stop early when the angular distance between successive estimates
is below `TOL`. -/
noncomputable def specIterate (qs : List Vec3) (tol : ℝ) : Nat → Vec3 → Vec3
  | 0, p => p
  | fuel + 1, p =>
    let pNext := specStep p qs
    if specAngle p pNext < tol then p
    else specIterate qs tol fuel pNext

/-- Modelled from the spec (§4.4 step 2): seed estimate `p₀` = the
normalization of the vector sum of all input unit vectors. -/
noncomputable def specSeed (qs : List Vec3) : Vec3 :=
  normalise (qs.foldl add ⟨0, 0, 0⟩)

end Solver

/-- The single inner `for` pass over the inputs accumulates exactly the
spec's `Σ w·q` and `Σ w`. -/
theorem weiszfeldStepAcc_eq (p : Vec3) (coords : List LatLng) :
    weiszfeldStepAcc p coords =
      (specNum p (coords.map llToVec), specDenom p (coords.map llToVec)) := by
  have h : ∀ (l : List LatLng) (a : Vec3) (b : ℝ),
      l.foldl
        (fun acc pt =>
          let q := llToVec pt
          let ang := Real.arccos (clamp (dot p q) (-1) 1)
          let w := 1 / max ang 1e-15
          (add acc.1 (scale q w), acc.2 + w))
        (a, b) =
      ((l.map llToVec).foldl (fun v q => add v (scale q (specWeight p q))) a,
        (l.map llToVec).foldl (fun s q => s + specWeight p q) b) := by
    intro l
    induction l with
    | nil => intro a b; rfl
    | cons hd tl ih =>
      intro a b
      simpa [specWeight, specAngle] using ih _ _
  have hmap : ∀ (l : List Vec3) (a : Vec3),
      (l.map fun q => scale q (specWeight p q)).foldl add a =
        l.foldl (fun v q => add v (scale q (specWeight p q))) a := by
    intro l
    induction l with
    | nil => intro a; rfl
    | cons hd tl ih => intro a; simpa using ih _
  have hmap2 : ∀ (l : List Vec3) (b : ℝ),
      (l.map fun q => specWeight p q).foldl (· + ·) b =
        l.foldl (fun s q => s + specWeight p q) b := by
    intro l
    induction l with
    | nil => intro b; rfl
    | cons hd tl ih => intro b; simpa using ih _
  simp only [weiszfeldStepAcc, h, specNum, specDenom, hmap, hmap2]

/-- The source loop agrees with the spec-modelled iteration. -/
theorem weiszfeldLoop_eq_specIterate (coords : List LatLng) (tol : ℝ) :
    ∀ (fuel : Nat) (p : Vec3),
      weiszfeldLoop coords tol fuel p =
        specIterate (coords.map llToVec) tol fuel p := by
  intro fuel
  induction fuel with
  | zero => intro p; rfl
  | succ n ih =>
    intro p
    simp only [weiszfeldLoop, specIterate, weiszfeldStepAcc_eq, specStep, specAngle]
    split
    · rfl
    · exact ih _

/-- Claim C1: for every coordinate list with at least two points,
`geometricMedianOnSphere` performs the spec's spherical Weiszfeld
iteration: it starts from the normalized vector sum of the input unit
vectors and iterates the spec's weighted step (weights
`1/max(arccos(clamp(p·q, -1, 1)), 1e-15)`), stopping when the angular
distance between successive estimates drops below `tol` or after
`maxIter` rounds, returning the last iterate without error on
non-convergence. -/
theorem geometricMedianOnSphere_is_spec_weiszfeld
    (coords : List LatLng) (tol : ℝ) (maxIter : Nat)
    (h : 2 ≤ coords.length) :
    geometricMedianOnSphere coords tol maxIter =
      vecToLl (specIterate (coords.map llToVec) tol maxIter
        (specSeed (coords.map llToVec))) := by
  match coords with
  | [] => simp at h
  | [c] => simp at h
  | a :: b :: rest =>
    show vecToLl (weiszfeldLoop (a :: b :: rest) tol maxIter _) = _
    rw [weiszfeldLoop_eq_specIterate]
    rfl

/-- Witness for C1 at a concrete two-point input. -/
theorem geometricMedianOnSphere_is_spec_weiszfeld_witness :
    2 ≤ ([⟨0, 0⟩, ⟨10, 20⟩] : List LatLng).length ∧
      geometricMedianOnSphere [⟨0, 0⟩, ⟨10, 20⟩] (1e-10) 500 =
        vecToLl (specIterate (([⟨0, 0⟩, ⟨10, 20⟩] : List LatLng).map llToVec) (1e-10) 500
          (specSeed (([⟨0, 0⟩, ⟨10, 20⟩] : List LatLng).map llToVec))) :=
  ⟨by simp, geometricMedianOnSphere_is_spec_weiszfeld _ _ _ (by simp)⟩

/-! ### Degenerate antipodal seeding (claim C2)

The seed at src/midpoint.ts line 203 is `normalise` of the vector sum of
the input unit vectors, with no guard: for exactly antipodal inputs the
sum is the zero vector and `normalise` divides by `norm = 0`.  In IEEE
arithmetic `1/0 = Infinity` and `0 · Infinity = NaN`, so the seed — and
with it the final result — is NaN; in this exact-real model division by
zero yields `0`, so the invalid zero-vector seed propagates to the
sentinel-like output `(0, 0)`.  No deterministic fallback seed appears
anywhere on this path. -/

theorem llToVec_northPole : llToVec ⟨90, 0⟩ = ⟨0, 0, 1⟩ := by
  have h1 : (90 : ℝ) * π / 180 = π / 2 := by ring
  have h2 : (0 : ℝ) * π / 180 = 0 := by ring
  simp [llToVec, h1, h2]

theorem llToVec_southPole : llToVec ⟨-90, 0⟩ = ⟨0, 0, -1⟩ := by
  have h1 : (-90 : ℝ) * π / 180 = -(π / 2) := by ring
  have h2 : (0 : ℝ) * π / 180 = 0 := by ring
  simp only [llToVec, h1, h2]
  simp

theorem dot_zero_left (v : Vec3) : dot ⟨0, 0, 0⟩ v = 0 := by
  simp [dot]

theorem clamp_zero : clamp 0 (-1) 1 = 0 := by
  rw [clamp, max_eq_left (by norm_num : (-1 : ℝ) ≤ 0),
    min_eq_left (by norm_num : (0 : ℝ) ≤ 1)]

theorem scale_zero_vec (k : ℝ) : scale ⟨0, 0, 0⟩ k = ⟨0, 0, 0⟩ := by
  simp [scale]

theorem normalise_zero_vec : normalise ⟨0, 0, 0⟩ = ⟨0, 0, 0⟩ := by
  simp [normalise, scale]

theorem vecToLl_zero_vec : vecToLl ⟨0, 0, 0⟩ = ⟨0, 0⟩ := by
  have h0 : ((⟨0, 0⟩ : ℂ)) = 0 := by
    apply Complex.ext <;> simp
  simp [vecToLl, atan2, h0, Complex.arg_zero]

theorem antipodal_sum_eq_zero :
    (([⟨90, 0⟩, ⟨-90, 0⟩] : List LatLng).map llToVec).foldl add ⟨0, 0, 0⟩ = ⟨0, 0, 0⟩ := by
  simp [llToVec_northPole, llToVec_southPole, add]

theorem weiszfeldStepAcc_at_zero :
    weiszfeldStepAcc ⟨0, 0, 0⟩ [⟨90, 0⟩, ⟨-90, 0⟩] =
      (⟨0, 0, 0⟩,
        (0 + 1 / max (Real.arccos 0) 1e-15) + 1 / max (Real.arccos 0) 1e-15) := by
  simp [weiszfeldStepAcc, llToVec_northPole, llToVec_southPole, dot_zero_left,
    clamp_zero, add, scale]

theorem pi_div_two_not_lt_tol : ¬ (π / 2 < (1e-10 : ℝ)) := by
  have h := Real.pi_gt_three
  intro hc
  norm_num at hc
  linarith

theorem weiszfeldLoop_zero_fixed (fuel : Nat) :
    weiszfeldLoop [⟨90, 0⟩, ⟨-90, 0⟩] 1e-10 fuel ⟨0, 0, 0⟩ = ⟨0, 0, 0⟩ := by
  induction fuel with
  | zero => rfl
  | succ n ih =>
    rw [weiszfeldLoop]
    simp only [weiszfeldStepAcc_at_zero, scale_zero_vec, normalise_zero_vec,
      dot_zero_left, clamp_zero, Real.arccos_zero]
    rw [if_neg pi_div_two_not_lt_tol]
    exact ih

/-- Claim C2 (evidence for the missing degeneracy guard): on the exactly
antipodal input `[(90, 0), (-90, 0)]` the unit vectors are `(0,0,1)` and
`(0,0,-1)`, their sum is the zero vector, and the seed at
src/midpoint.ts line 203 is `normalise` of that zero vector — the
"invalid normalized sum" the spec warns about, with no fallback: the
computed seed is the (non-unit) zero vector and the solver's output
degenerates to `(0, 0)` (NaN under IEEE semantics). -/
theorem solver_antipodal_input_unguarded :
    llToVec ⟨90, 0⟩ = ⟨0, 0, 1⟩ ∧
      llToVec ⟨-90, 0⟩ = ⟨0, 0, -1⟩ ∧
      normalise ((([⟨90, 0⟩, ⟨-90, 0⟩] : List LatLng).map llToVec).foldl add ⟨0, 0, 0⟩) =
        ⟨0, 0, 0⟩ ∧
      geometricMedianOnSphere [⟨90, 0⟩, ⟨-90, 0⟩] = ⟨0, 0⟩ := by
  have hsum := antipodal_sum_eq_zero
  refine ⟨llToVec_northPole, llToVec_southPole, ?_, ?_⟩
  · rw [hsum, normalise_zero_vec]
  · show vecToLl (weiszfeldLoop [⟨90, 0⟩, ⟨-90, 0⟩] 1e-10 500
      (normalise ((([⟨90, 0⟩, ⟨-90, 0⟩] : List LatLng).map llToVec).foldl add ⟨0, 0, 0⟩))) =
      ⟨0, 0⟩
    rw [hsum, normalise_zero_vec, weiszfeldLoop_zero_fixed, vecToLl_zero_vec]

/-- Claim C7: `geometricMedianOnSphere` maps the empty coordinate list to
the sentinel `(0, 0)` and maps every single-point list to exactly that
point, unchanged, performing no iteration (the two early returns at
src/midpoint.ts lines 199-200). -/
theorem geometricMedianOnSphere_empty_and_singleton :
    geometricMedianOnSphere [] = ⟨0, 0⟩ ∧
      ∀ c : LatLng, geometricMedianOnSphere [c] = c := by
  exact ⟨rfl, fun c => rfl⟩

/-! ### Registry reconciliation (src/processPlaces.ts)

A JS object `Record<string, SavedPlace>` is modelled as an association
list in insertion order with (in practice) unique keys: property lookup
reads the first binding, assignment to an existing key updates it in
place, assignment to a fresh key appends, and `delete` removes the
binding while preserving the order of the others. -/

/-- TS `SavedPlace` (src/processPlaces.ts lines 22-28).  The optional
booleans `current?` and `permanentlyClosed?` are modelled as `Bool`
(an absent property is falsy, observably identical to `false` in every
use the code makes of them). -/
structure SavedPlace where
  current : Bool
  address : Option String
  latLng : Option LatLng
  categories : List String
  permanentlyClosed : Bool

/-- The persistent registry: place name to `SavedPlace`, insertion order
preserved (TS `SavedPlaces = Record<string, SavedPlace>`). -/
abbrev Registry := List (String × SavedPlace)

/-- The names (JS object keys) of a registry, in insertion order. -/
def keysOf (reg : Registry) : List String := reg.map Prod.fst

/-- JS property read `savedPlaces[name]`. -/
def lookupName (name : String) : Registry → Option SavedPlace
  | [] => none
  | (k, p) :: rest => if k = name then some p else lookupName name rest

/-- JS property write to an existing key: update the binding of `name`
in place, keeping insertion order. -/
def updateName (name : String) (f : SavedPlace → SavedPlace) : Registry → Registry
  | [] => []
  | (k, p) :: rest =>
    if k = name then (k, f p) :: rest else (k, p) :: updateName name f rest

/-- src/processPlaces.ts line 240:
`Object.values(savedPlaces).forEach((place) => (place.current = false))`. -/
def resetCurrent (reg : Registry) : Registry :=
  reg.map fun e => (e.1, { e.2 with current := false })

/-- One fetched batch (spec §3 `SourceBatch`): the scraped list's label
plus its ordered `(name, permanentlyClosed)` observations. -/
structure SourceBatch where
  listLabel : String
  entries : List (String × Bool)
deriving DecidableEq

/-- The fresh place created at src/processPlaces.ts line 305:
`{ categories: [listName], current: true, permanentlyClosed }`. -/
def freshPlace (listLabel : String) (closed : Bool) : SavedPlace :=
  { current := true, address := none, latLng := none,
    categories := [listLabel], permanentlyClosed := closed }

/-- src/processPlaces.ts lines 310-312: push the list label onto
`categories` unless it is already present. -/
def addCategory (listLabel : String) (cats : List String) : List String :=
  if listLabel ∈ cats then cats else cats ++ [listLabel]

/-- The in-place update at src/processPlaces.ts lines 307-312: set
`current = true`, overwrite `permanentlyClosed`, add the list label. -/
def updPlace (listLabel : String) (closed : Bool) (p : SavedPlace) : SavedPlace :=
  { p with current := true, permanentlyClosed := closed,
           categories := addCategory listLabel p.categories }

/-- src/processPlaces.ts lines 300-313: process one `(name,
permanentlyClosed)` observation — empty names are skipped
(`if (!placeName) continue`), a new name is appended as a fresh place,
an existing name is updated in place. -/
def mergeObservation (listLabel : String) (reg : Registry) (e : String × Bool) : Registry :=
  if e.1 = "" then reg
  else
    match lookupName e.1 reg with
    | none => reg ++ [(e.1, freshPlace listLabel e.2)]
    | some _ => updateName e.1 (updPlace listLabel e.2) reg

/-- Merging one batch: the `for (const { name, permanentlyClosed } of
placesFromPage)` loop of src/processPlaces.ts (lines 300-321). -/
def mergeBatch (reg : Registry) (b : SourceBatch) : Registry :=
  b.entries.foldl (mergeObservation b.listLabel) reg

/-- src/processPlaces.ts lines 327-338: delete every place whose
`current` flag is still false (the sweep). -/
def sweep (reg : Registry) : Registry := reg.filter fun e => e.2.current

/-- One full reconciliation run (src/processPlaces.ts main IIFE): reset
all `current` flags, merge each batch in order, then sweep. -/
def runReconcile (reg : Registry) (batches : List SourceBatch) : Registry :=
  sweep (batches.foldl mergeBatch (resetCurrent reg))

/-- The net effect of a batch's observations on one name's binding:
absent names get the fresh place, present ones the in-place update. -/
def netOne (listLabel : String) (closed : Bool) : Option SavedPlace → SavedPlace
  | none => freshPlace listLabel closed
  | some p => updPlace listLabel closed p

/-- The last `permanentlyClosed` value an entry list observes for a
(non-empty) name, if any. -/
def lastObs (name : String) : List (String × Bool) → Option Bool
  | [] => none
  | e :: rest =>
    match lastObs name rest with
    | some c => some c
    | none => if e.1 = name ∧ name ≠ "" then some e.2 else none

/-- The per-name transformation a run's batch sequence applies to one
binding, batch by batch. -/
def applyBatches (name : String) : Option SavedPlace → List SourceBatch → Option SavedPlace
  | o, [] => o
  | o, b :: rest =>
    applyBatches name
      (match lastObs name b.entries with
        | none => o
        | some c => some (netOne b.listLabel c o)) rest

theorem keysOf_updateName (name : String) (f : SavedPlace → SavedPlace) (reg : Registry) :
    keysOf (updateName name f reg) = keysOf reg := by
  induction reg with
  | nil => rfl
  | cons hd tl ih =>
    obtain ⟨k, p⟩ := hd
    by_cases h : k = name <;> simp [updateName, h, keysOf] at ih ⊢ <;> exact ih

theorem lookupName_updateName_self (name : String) (f : SavedPlace → SavedPlace)
    (reg : Registry) :
    lookupName name (updateName name f reg) = (lookupName name reg).map f := by
  induction reg with
  | nil => rfl
  | cons hd tl ih =>
    obtain ⟨k, p⟩ := hd
    by_cases h : k = name <;> simp [updateName, lookupName, h] <;> exact ih

theorem lookupName_updateName_ne {m name : String} (h : m ≠ name)
    (f : SavedPlace → SavedPlace) (reg : Registry) :
    lookupName m (updateName name f reg) = lookupName m reg := by
  induction reg with
  | nil => rfl
  | cons hd tl ih =>
    obtain ⟨k, p⟩ := hd
    by_cases hk : k = name
    · subst hk
      rw [updateName, if_pos rfl, lookupName, lookupName,
        if_neg (Ne.symm h), if_neg (Ne.symm h)]
    · rw [updateName, if_neg hk, lookupName, lookupName]
      by_cases hm : k = m
      · rw [if_pos hm, if_pos hm]
      · rw [if_neg hm, if_neg hm]
        exact ih

theorem lookupName_append (m : String) (l1 l2 : Registry) :
    lookupName m (l1 ++ l2) =
      match lookupName m l1 with
      | some q => some q
      | none => lookupName m l2 := by
  induction l1 with
  | nil => rfl
  | cons hd tl ih =>
    obtain ⟨k, p⟩ := hd
    by_cases h : k = m <;> simp [lookupName, h] <;> exact ih

theorem lookupName_eq_none_iff (m : String) (reg : Registry) :
    lookupName m reg = none ↔ m ∉ keysOf reg := by
  induction reg with
  | nil => simp [lookupName, keysOf]
  | cons hd tl ih =>
    obtain ⟨k, p⟩ := hd
    by_cases h : k = m
    · subst h
      simp [lookupName, keysOf]
    · simp only [lookupName, if_neg h, keysOf, List.map_cons, List.mem_cons, not_or]
      rw [show keysOf tl = tl.map Prod.fst from rfl] at ih
      exact ⟨fun hh => ⟨fun hc => h hc.symm, ih.mp hh⟩, fun hh => ih.mpr hh.2⟩

theorem lookupName_mem {m : String} {reg : Registry} {p : SavedPlace}
    (h : lookupName m reg = some p) : (m, p) ∈ reg := by
  induction reg with
  | nil => simp [lookupName] at h
  | cons hd tl ih =>
    obtain ⟨k, q⟩ := hd
    by_cases hk : k = m
    · subst hk
      simp [lookupName] at h
      subst h
      exact List.mem_cons_self _ _
    · simp [lookupName, hk] at h
      exact List.mem_cons_of_mem _ (ih h)

theorem lookupName_mergeObservation (listLabel : String) (reg : Registry)
    (e : String × Bool) (m : String) :
    lookupName m (mergeObservation listLabel reg e) =
      if e.1 = m ∧ m ≠ "" then some (netOne listLabel e.2 (lookupName m reg))
      else lookupName m reg := by
  obtain ⟨n, c⟩ := e
  by_cases hn : n = ""
  · subst hn
    have hcond : ¬(("" : String) = m ∧ m ≠ "") := fun hc => hc.2 hc.1.symm
    simp [mergeObservation, hcond]
  · simp only [mergeObservation, if_neg hn]
    by_cases hm : n = m
    · subst hm
      have hc2 : n = n ∧ n ≠ "" := ⟨rfl, hn⟩
      rw [if_pos hc2]
      cases hl : lookupName n reg with
      | none =>
        rw [lookupName_append, hl]
        simp [lookupName, netOne]
      | some p =>
        rw [lookupName_updateName_self, hl]
        rfl
    · have hcond : ¬(n = m ∧ m ≠ "") := fun hc => hm hc.1
      rw [if_neg hcond]
      cases hl : lookupName n reg with
      | none =>
        rw [lookupName_append]
        cases hl2 : lookupName m reg with
        | none => simp [lookupName, hm]
        | some q => rfl
      | some p => exact lookupName_updateName_ne (Ne.symm hm) _ _

theorem keysOf_mergeObservation (listLabel : String) (reg : Registry) (e : String × Bool) :
    keysOf (mergeObservation listLabel reg e) =
      keysOf reg ++
        (match lookupName e.1 reg with
          | none => if e.1 = "" then [] else [e.1]
          | some _ => []) := by
  obtain ⟨n, c⟩ := e
  by_cases hn : n = ""
  · subst hn
    cases hl : lookupName "" reg <;> simp [mergeObservation]
  · simp only [mergeObservation, if_neg hn]
    cases hl : lookupName n reg with
    | none => simp [keysOf, hn]
    | some p =>
      have h := keysOf_updateName n (updPlace listLabel c) reg
      simp only [keysOf] at h
      simp [h, keysOf]

theorem netOne_comp (listLabel : String) (c1 c2 : Bool) (o : Option SavedPlace) :
    updPlace listLabel c2 (netOne listLabel c1 o) = netOne listLabel c2 o := by
  have hmem : ∀ cats, listLabel ∈ addCategory listLabel cats := by
    intro cats
    by_cases h : listLabel ∈ cats <;> simp [addCategory, h]
  cases o with
  | none => simp [netOne, updPlace, freshPlace, addCategory]
  | some p =>
    have h2 : addCategory listLabel (addCategory listLabel p.categories) =
        addCategory listLabel p.categories := by
      rw [addCategory, if_pos (hmem p.categories)]
    simp [netOne, updPlace, h2]

theorem lookupName_foldl_mergeObservation (listLabel : String) :
    ∀ (es : List (String × Bool)) (reg : Registry) (m : String),
      lookupName m (es.foldl (mergeObservation listLabel) reg) =
        match lastObs m es with
        | none => lookupName m reg
        | some c => some (netOne listLabel c (lookupName m reg)) := by
  intro es
  induction es with
  | nil => intro reg m; rfl
  | cons e rest ih =>
    intro reg m
    rw [List.foldl_cons, ih]
    cases hr : lastObs m rest with
    | some c =>
      simp only [lastObs, hr]
      rw [lookupName_mergeObservation]
      split
      · exact congrArg some (netOne_comp listLabel e.2 c (lookupName m reg))
      · rfl
    | none =>
      simp only [lastObs, hr]
      rw [lookupName_mergeObservation]
      by_cases h : e.1 = m ∧ m ≠ "" <;> simp [h]

theorem lookupName_mergeBatch (reg : Registry) (b : SourceBatch) (m : String) :
    lookupName m (mergeBatch reg b) =
      match lastObs m b.entries with
      | none => lookupName m reg
      | some c => some (netOne b.listLabel c (lookupName m reg)) :=
  lookupName_foldl_mergeObservation b.listLabel b.entries reg m

theorem lookupName_foldl_mergeBatch :
    ∀ (bs : List SourceBatch) (reg : Registry) (m : String),
      lookupName m (bs.foldl mergeBatch reg) =
        applyBatches m (lookupName m reg) bs := by
  intro bs
  induction bs with
  | nil => intro reg m; rfl
  | cons b rest ih =>
    intro reg m
    rw [List.foldl_cons, ih, lookupName_mergeBatch]
    rfl

theorem lastObs_eq_none_iff (n : String) (es : List (String × Bool)) :
    lastObs n es = none ↔ (n = "" ∨ ∀ c, (n, c) ∉ es) := by
  induction es with
  | nil => simp [lastObs]
  | cons e rest ih =>
    obtain ⟨e1, e2⟩ := e
    rw [lastObs]
    cases hr : lastObs n rest with
    | some c =>
      constructor
      · intro h
        simp at h
      · intro h
        have h2 : lastObs n rest = none :=
          ih.mpr (h.imp id fun hh c hc => hh c (List.mem_cons_of_mem _ hc))
        rw [hr] at h2
        simp at h2
    | none =>
      have hrest := ih.mp hr
      by_cases hc : e1 = n ∧ n ≠ ""
      · rw [if_pos hc]
        obtain ⟨hx, hy⟩ := hc
        subst hx
        constructor
        · intro h
          simp at h
        · rintro (h1 | h2)
          · exact absurd h1 hy
          · exact absurd (List.mem_cons_self _ _) (h2 e2)
      · rw [if_neg hc]
        constructor
        · intro _
          rcases hrest with h1 | h2
          · exact Or.inl h1
          · by_cases hn : n = ""
            · exact Or.inl hn
            · refine Or.inr fun c hcmem => ?_
              rcases List.mem_cons.mp hcmem with h3 | h4
              · injection h3 with h5 h6
                exact hc ⟨h5.symm, hn⟩
              · exact h2 c h4
        · intro _
          rfl

theorem lastObs_ne_none_iff (n : String) (es : List (String × Bool)) :
    lastObs n es ≠ none ↔ (n ≠ "" ∧ ∃ c, (n, c) ∈ es) := by
  rw [Ne, lastObs_eq_none_iff, not_or]
  push_neg
  rfl

theorem netOne_current (L : String) (c : Bool) (o : Option SavedPlace) :
    (netOne L c o).current = true := by
  cases o <;> simp [netOne, freshPlace, updPlace]

theorem netOne_address (L : String) (c : Bool) (o : Option SavedPlace) :
    (netOne L c o).address = o.bind SavedPlace.address := by
  cases o <;> simp [netOne, freshPlace, updPlace]

theorem netOne_latLng (L : String) (c : Bool) (o : Option SavedPlace) :
    (netOne L c o).latLng = o.bind SavedPlace.latLng := by
  cases o <;> simp [netOne, freshPlace, updPlace]

theorem applyBatches_not_observed :
    ∀ (bs : List SourceBatch) (o : Option SavedPlace) (m : String),
      (∀ b ∈ bs, lastObs m b.entries = none) → applyBatches m o bs = o := by
  intro bs
  induction bs with
  | nil => intro o m _; rfl
  | cons b rest ih =>
    intro o m h
    simp only [applyBatches, h b (List.mem_cons_self b rest)]
    exact ih o m fun b' hb' => h b' (List.mem_cons_of_mem _ hb')

theorem applyBatches_observed_current :
    ∀ (bs : List SourceBatch) (o : Option SavedPlace) (m : String),
      (∃ b ∈ bs, lastObs m b.entries ≠ none) →
      ∃ p, applyBatches m o bs = some p ∧ p.current = true := by
  intro bs
  induction bs with
  | nil =>
    intro o m h
    simp at h
  | cons b rest ih =>
    intro o m h
    by_cases hrest : ∃ b' ∈ rest, lastObs m b'.entries ≠ none
    · simp only [applyBatches]
      exact ih _ m hrest
    · push_neg at hrest
      rcases h with ⟨b', hb', hobs⟩
      rcases List.mem_cons.mp hb' with rfl | hmem
      · cases hlast : lastObs m b'.entries with
        | none => exact absurd hlast hobs
        | some c =>
          simp only [applyBatches, hlast]
          rw [applyBatches_not_observed rest _ m hrest]
          exact ⟨netOne b'.listLabel c o, rfl, netOne_current _ _ _⟩
      · exact absurd (hrest b' hmem) hobs

theorem applyBatches_address :
    ∀ (bs : List SourceBatch) (o : Option SavedPlace) (m : String) (p : SavedPlace),
      applyBatches m o bs = some p →
      p.address = o.bind SavedPlace.address ∧ p.latLng = o.bind SavedPlace.latLng := by
  intro bs
  induction bs with
  | nil =>
    intro o m p h
    cases o with
    | none => simp [applyBatches] at h
    | some q =>
      simp only [applyBatches, Option.some.injEq] at h
      subst h
      simp
  | cons b rest ih =>
    intro o m p h
    simp only [applyBatches] at h
    cases hlast : lastObs m b.entries with
    | none =>
      rw [hlast] at h
      exact ih _ m p h
    | some c =>
      rw [hlast] at h
      rcases ih _ m p h with ⟨h1, h2⟩
      constructor
      · rw [h1]
        show (netOne b.listLabel c o).address = o.bind SavedPlace.address
        exact netOne_address _ _ _
      · rw [h2]
        show (netOne b.listLabel c o).latLng = o.bind SavedPlace.latLng
        exact netOne_latLng _ _ _

theorem mem_updateName {np : String × SavedPlace} {n : String}
    {f : SavedPlace → SavedPlace} {reg : Registry} :
    np ∈ updateName n f reg → np ∈ reg ∨ ∃ q, (n, q) ∈ reg ∧ np = (n, f q) := by
  induction reg with
  | nil =>
    intro h
    simp [updateName] at h
  | cons hd tl ih =>
    obtain ⟨k, p⟩ := hd
    intro h
    by_cases hk : k = n
    · subst hk
      rw [updateName, if_pos rfl] at h
      rcases List.mem_cons.mp h with rfl | hmem
      · exact Or.inr ⟨p, List.mem_cons_self _ _, rfl⟩
      · exact Or.inl (List.mem_cons_of_mem _ hmem)
    · rw [updateName, if_neg hk] at h
      rcases List.mem_cons.mp h with rfl | hmem
      · exact Or.inl (List.mem_cons_self _ _)
      · rcases ih hmem with h1 | ⟨q, hq, hnp⟩
        · exact Or.inl (List.mem_cons_of_mem _ h1)
        · exact Or.inr ⟨q, List.mem_cons_of_mem _ hq, hnp⟩

theorem mem_mergeObservation {np : String × SavedPlace} {L : String} {reg : Registry}
    {e : String × Bool} (h : np ∈ mergeObservation L reg e) :
    np ∈ reg ∨ (np.1 = e.1 ∧ e.1 ≠ "" ∧
      (np.2 = freshPlace L e.2 ∨ ∃ q, (e.1, q) ∈ reg ∧ np.2 = updPlace L e.2 q)) := by
  obtain ⟨n, c⟩ := e
  by_cases hn : n = ""
  · subst hn
    rw [mergeObservation, if_pos rfl] at h
    exact Or.inl h
  · rw [mergeObservation, if_neg hn] at h
    cases hl : lookupName n reg with
    | none =>
      simp only [hl] at h
      rcases List.mem_append.mp h with h1 | h2
      · exact Or.inl h1
      · rcases List.mem_singleton.mp h2 with rfl
        exact Or.inr ⟨rfl, hn, Or.inl rfl⟩
    | some p =>
      simp only [hl] at h
      rcases mem_updateName h with h1 | ⟨q, hq, hnp⟩
      · exact Or.inl h1
      · exact Or.inr ⟨by rw [hnp], hn, Or.inr ⟨q, hq, by rw [hnp]⟩⟩

theorem mem_foldl_mergeObservation {L : String} :
    ∀ (es : List (String × Bool)) (reg : Registry) (np : String × SavedPlace),
      np ∈ es.foldl (mergeObservation L) reg →
      np ∈ reg ∨ (np.1 ≠ "" ∧ ∃ c, (np.1, c) ∈ es) := by
  intro es
  induction es with
  | nil =>
    intro reg np h
    exact Or.inl h
  | cons e rest ih =>
    intro reg np h
    rw [List.foldl_cons] at h
    rcases ih _ np h with h1 | ⟨hne, c, hc⟩
    · rcases mem_mergeObservation h1 with h2 | ⟨heq, hene, _⟩
      · exact Or.inl h2
      · refine Or.inr ⟨heq ▸ hene, e.2, ?_⟩
        rw [heq, Prod.mk.eta]
        exact List.mem_cons_self _ _
    · exact Or.inr ⟨hne, c, List.mem_cons_of_mem _ hc⟩

theorem mem_foldl_mergeBatch :
    ∀ (bs : List SourceBatch) (reg : Registry) (np : String × SavedPlace),
      np ∈ bs.foldl mergeBatch reg →
      np ∈ reg ∨ ∃ b ∈ bs, np.1 ≠ "" ∧ ∃ c, (np.1, c) ∈ b.entries := by
  intro bs
  induction bs with
  | nil =>
    intro reg np h
    exact Or.inl h
  | cons b rest ih =>
    intro reg np h
    rw [List.foldl_cons] at h
    rcases ih _ np h with h1 | ⟨b', hb', hrest⟩
    · rcases mem_foldl_mergeObservation b.entries reg np h1 with h2 | ⟨hne, c, hc⟩
      · exact Or.inl h2
      · exact Or.inr ⟨b, List.mem_cons_self _ _, hne, c, hc⟩
    · exact Or.inr ⟨b', List.mem_cons_of_mem _ hb', hrest⟩

theorem mem_resetCurrent {np : String × SavedPlace} {reg : Registry}
    (h : np ∈ resetCurrent reg) : np.2.current = false := by
  rcases List.mem_map.mp h with ⟨e, _, rfl⟩
  rfl

theorem mem_keysOf_iff {n : String} {reg : Registry} :
    n ∈ keysOf reg ↔ ∃ p, (n, p) ∈ reg := by
  constructor
  · intro h
    rcases List.mem_map.mp h with ⟨e, he, heq⟩
    refine ⟨e.2, ?_⟩
    rw [← heq, Prod.mk.eta]
    exact he
  · rintro ⟨p, hp⟩
    exact List.mem_map.mpr ⟨(n, p), hp, rfl⟩

theorem mem_sweep_iff {np : String × SavedPlace} {reg : Registry} :
    np ∈ sweep reg ↔ np ∈ reg ∧ np.2.current = true := by
  simp [sweep, List.mem_filter]

/-- The post-sweep key set is exactly the set of non-empty names observed
by the run's batches (shared characterization for C3 and C5). -/
theorem keysOf_runReconcile_iff (reg : Registry) (bs : List SourceBatch) (n : String) :
    n ∈ keysOf (runReconcile reg bs) ↔
      (n ≠ "" ∧ ∃ b ∈ bs, ∃ c, (n, c) ∈ b.entries) := by
  constructor
  · intro h
    rcases mem_keysOf_iff.mp h with ⟨p, hp⟩
    rcases mem_sweep_iff.mp hp with ⟨hmem, hcur⟩
    rcases mem_foldl_mergeBatch bs _ (n, p) hmem with h1 | ⟨b, hb, hne, c, hc⟩
    · rw [mem_resetCurrent h1] at hcur
      cases hcur
    · exact ⟨hne, b, hb, c, hc⟩
  · rintro ⟨hne, b, hb, c, hc⟩
    have hobs : lastObs n b.entries ≠ none :=
      (lastObs_ne_none_iff n b.entries).mpr ⟨hne, c, hc⟩
    rcases applyBatches_observed_current bs (lookupName n (resetCurrent reg)) n
        ⟨b, hb, hobs⟩ with ⟨p, hap, hpcur⟩
    have hlk : lookupName n (bs.foldl mergeBatch (resetCurrent reg)) = some p := by
      rw [lookupName_foldl_mergeBatch]
      exact hap
    exact mem_keysOf_iff.mpr ⟨p, mem_sweep_iff.mpr ⟨lookupName_mem hlk, hpcur⟩⟩

/-- Claim C3: after a run's batches are merged and the sweep runs, the
registry's key set equals exactly the union of the non-empty place names
observed across the run's batches, and every remaining place has
`current = true`; a previously stored place mentioned by no batch of the
run is deleted (it is excluded by the key-set equality). -/
theorem runReconcile_key_set_invariant (reg : Registry) (bs : List SourceBatch) :
    (∀ n, n ∈ keysOf (runReconcile reg bs) ↔
        (n ≠ "" ∧ ∃ b ∈ bs, ∃ c, (n, c) ∈ b.entries)) ∧
      ∀ n p, (n, p) ∈ runReconcile reg bs → p.current = true :=
  ⟨fun n => keysOf_runReconcile_iff reg bs n,
    fun _ _ h => (mem_sweep_iff.mp h).2⟩

theorem lookupName_mergeObservation_isSome {m : String} {reg : Registry}
    {L : String} {e : String × Bool}
    (h : lookupName m reg ≠ none) : lookupName m (mergeObservation L reg e) ≠ none := by
  rw [lookupName_mergeObservation]
  split
  · simp
  · exact h

theorem keysOf_foldl_mergeObservation_of_present (L : String) :
    ∀ (es : List (String × Bool)) (reg : Registry),
      (∀ e ∈ es, e.1 = "" ∨ lookupName e.1 reg ≠ none) →
      keysOf (es.foldl (mergeObservation L) reg) = keysOf reg := by
  intro es
  induction es with
  | nil => intro reg _; rfl
  | cons e rest ih =>
    intro reg h
    rw [List.foldl_cons]
    have hkeys : keysOf (mergeObservation L reg e) = keysOf reg := by
      rw [keysOf_mergeObservation]
      rcases h e (List.mem_cons_self _ _) with h1 | h2
      · cases hl : lookupName e.1 reg <;> simp [h1]
      · cases hl : lookupName e.1 reg with
        | none => exact absurd hl h2
        | some p => simp
    have hrest : ∀ e' ∈ rest, e'.1 = "" ∨ lookupName e'.1 (mergeObservation L reg e) ≠ none := by
      intro e' he'
      rcases h e' (List.mem_cons_of_mem _ he') with h1 | h2
      · exact Or.inl h1
      · exact Or.inr (lookupName_mergeObservation_isSome h2)
    rw [ih _ hrest, hkeys]

theorem lookupName_mergeBatch_present {reg : Registry} {b : SourceBatch}
    {n : String} {c : Bool} (hne : n ≠ "") (hc : (n, c) ∈ b.entries) :
    lookupName n (mergeBatch reg b) ≠ none := by
  rw [lookupName_mergeBatch]
  cases hlast : lastObs n b.entries with
  | none =>
    rcases (lastObs_eq_none_iff _ _).mp hlast with h1 | h2
    · exact absurd h1 hne
    · exact absurd hc (h2 c)
  | some c' => simp

theorem nodup_keysOf_mergeObservation {L : String} {reg : Registry} {e : String × Bool}
    (h : (keysOf reg).Nodup) : (keysOf (mergeObservation L reg e)).Nodup := by
  rw [keysOf_mergeObservation]
  cases hl : lookupName e.1 reg with
  | some p => simpa using h
  | none =>
    by_cases he : e.1 = ""
    · simpa [he] using h
    · have hnotin : e.1 ∉ keysOf reg := (lookupName_eq_none_iff _ _).mp hl
      simp only [he, if_neg]
      rw [List.nodup_append]
      exact ⟨h, List.nodup_singleton _,
        fun x hx hx' => hnotin ((List.mem_singleton.mp hx') ▸ hx)⟩

theorem nodup_keysOf_foldl_mergeObservation (L : String) :
    ∀ (es : List (String × Bool)) (reg : Registry),
      (keysOf reg).Nodup → (keysOf (es.foldl (mergeObservation L) reg)).Nodup := by
  intro es
  induction es with
  | nil => intro reg h; exact h
  | cons e rest ih =>
    intro reg h
    rw [List.foldl_cons]
    exact ih _ (nodup_keysOf_mergeObservation h)

theorem nodup_keysOf_mergeBatch {reg : Registry} {b : SourceBatch}
    (h : (keysOf reg).Nodup) : (keysOf (mergeBatch reg b)).Nodup :=
  nodup_keysOf_foldl_mergeObservation b.listLabel b.entries reg h

theorem registry_ext : ∀ (A B : Registry),
    keysOf A = keysOf B → (∀ n, lookupName n A = lookupName n B) →
    (keysOf A).Nodup → A = B := by
  intro A
  induction A with
  | nil =>
    intro B hk _ _
    cases B with
    | nil => rfl
    | cons hd tl => simp [keysOf] at hk
  | cons hd tl ih =>
    intro B hk hl hnd
    obtain ⟨k, p⟩ := hd
    cases B with
    | nil => simp [keysOf] at hk
    | cons hd' tl' =>
      obtain ⟨k', q⟩ := hd'
      simp only [keysOf, List.map_cons, List.cons.injEq] at hk
      obtain ⟨hkk, htl⟩ := hk
      subst hkk
      have hlk := hl k
      rw [lookupName, lookupName, if_pos rfl, if_pos rfl] at hlk
      injection hlk with hpq
      subst hpq
      simp only [keysOf, List.map_cons, List.nodup_cons] at hnd
      have hknotin' : k ∉ tl'.map Prod.fst := htl ▸ hnd.1
      have hltl : ∀ n, lookupName n tl = lookupName n tl' := by
        intro n
        by_cases hn : n = k
        · subst hn
          rw [(lookupName_eq_none_iff _ _).mpr hnd.1,
            (lookupName_eq_none_iff _ _).mpr hknotin']
        · have h2 := hl n
          rw [lookupName, lookupName, if_neg (fun hc => hn hc.symm),
            if_neg (fun hc => hn hc.symm)] at h2
          exact h2
      rw [ih tl' htl hltl hnd.2]

theorem catsNodup_foldl_mergeObservation (L : String) :
    ∀ (es : List (String × Bool)) (reg : Registry),
      (∀ np : String × SavedPlace, np ∈ reg → np.2.categories.Nodup) →
      ∀ np ∈ es.foldl (mergeObservation L) reg, np.2.categories.Nodup := by
  intro es
  induction es with
  | nil => intro reg h np hm; exact h np hm
  | cons e rest ih =>
    intro reg h np hm
    rw [List.foldl_cons] at hm
    refine ih _ ?_ np hm
    intro np' hnp'
    rcases mem_mergeObservation hnp' with h1 | ⟨_, _, h2 | ⟨q, hq, h3⟩⟩
    · exact h np' h1
    · rw [h2]
      simp [freshPlace]
    · rw [h3]
      have hqnd := h (e.1, q) hq
      simp only [updPlace]
      by_cases hmem : L ∈ q.categories
      · simpa [addCategory, hmem] using hqnd
      · rw [addCategory, if_neg hmem, List.nodup_append]
        exact ⟨hqnd, List.nodup_singleton _,
          fun x hx hx' => hmem ((List.mem_singleton.mp hx') ▸ hx)⟩

/-- Claim C4: merging the same batch twice within one run yields exactly
the same registry as merging it once; the categories list of every place
never gains a duplicate label; and the repetition does not change any
`current` flag.  The key-uniqueness hypothesis reflects that a JS object
cannot have duplicate keys. -/
theorem mergeBatch_idempotent (reg : Registry) (b : SourceBatch)
    (hnd : (keysOf reg).Nodup) :
    mergeBatch (mergeBatch reg b) b = mergeBatch reg b ∧
      ((∀ n p, (n, p) ∈ reg → p.categories.Nodup) →
        ∀ n p, (n, p) ∈ mergeBatch reg b → p.categories.Nodup) ∧
      ∀ n, (lookupName n (mergeBatch (mergeBatch reg b) b)).map SavedPlace.current =
        (lookupName n (mergeBatch reg b)).map SavedPlace.current := by
  have hkeys : keysOf (mergeBatch (mergeBatch reg b) b) = keysOf (mergeBatch reg b) := by
    apply keysOf_foldl_mergeObservation_of_present
    intro e he
    by_cases h : e.1 = ""
    · exact Or.inl h
    · refine Or.inr (lookupName_mergeBatch_present (c := e.2) h ?_)
      rw [Prod.mk.eta]
      exact he
  have hmain : mergeBatch (mergeBatch reg b) b = mergeBatch reg b := by
    apply registry_ext _ _ hkeys
    · intro n
      rw [lookupName_mergeBatch (mergeBatch reg b) b n, lookupName_mergeBatch reg b n]
      cases hlast : lastObs n b.entries with
      | none => rfl
      | some c => exact congrArg some (netOne_comp b.listLabel c c (lookupName n reg))
    · exact nodup_keysOf_mergeBatch (nodup_keysOf_mergeBatch hnd)
  refine ⟨hmain, ?_, fun n => by rw [hmain]⟩
  intro hcats n p hmem
  exact catsNodup_foldl_mergeObservation b.listLabel b.entries reg
    (fun np hm => hcats np.1 np.2 (by rw [Prod.mk.eta]; exact hm)) (n, p) hmem

/-- Witness for C4 at a concrete registry and batch. -/
theorem mergeBatch_idempotent_witness :
    (keysOf [("A", freshPlace "S0" false)]).Nodup ∧
      mergeBatch (mergeBatch [("A", freshPlace "S0" false)]
          ⟨"S1", [("A", true), ("B", false)]⟩)
          ⟨"S1", [("A", true), ("B", false)]⟩ =
        mergeBatch [("A", freshPlace "S0" false)]
          ⟨"S1", [("A", true), ("B", false)]⟩ :=
  ⟨by decide, (mergeBatch_idempotent _ _ (by decide)).1⟩

theorem keysOf_resetCurrent (reg : Registry) : keysOf (resetCurrent reg) = keysOf reg := by
  rw [keysOf, resetCurrent, List.map_map]
  rfl

theorem nodup_keysOf_foldl_mergeBatch :
    ∀ (bs : List SourceBatch) (reg : Registry),
      (keysOf reg).Nodup → (keysOf (bs.foldl mergeBatch reg)).Nodup := by
  intro bs
  induction bs with
  | nil => intro reg h; exact h
  | cons b rest ih =>
    intro reg h
    rw [List.foldl_cons]
    exact ih _ (nodup_keysOf_mergeBatch h)

theorem keysOf_sweep_subset {n : String} {reg : Registry}
    (h : n ∈ keysOf (sweep reg)) : n ∈ keysOf reg := by
  rcases mem_keysOf_iff.mp h with ⟨p, hp⟩
  exact mem_keysOf_iff.mpr ⟨p, (mem_sweep_iff.mp hp).1⟩

theorem lookupName_sweep {reg : Registry} (hnd : (keysOf reg).Nodup) (n : String) :
    lookupName n (sweep reg) =
      (lookupName n reg).bind fun p => if p.current then some p else none := by
  induction reg with
  | nil => rfl
  | cons hd tl ih =>
    obtain ⟨k, p⟩ := hd
    simp only [keysOf, List.map_cons, List.nodup_cons] at hnd
    by_cases h : k = n
    · subst h
      rw [lookupName, if_pos rfl]
      cases hc : p.current with
      | true =>
        simp [sweep, List.filter_cons, hc, lookupName]
      | false =>
        rw [show sweep ((k, p) :: tl) = sweep tl from by
          simp [sweep, List.filter_cons, hc]]
        simp only [Option.some_bind, hc, Bool.false_eq_true, if_false]
        rw [lookupName_eq_none_iff]
        intro hmem
        exact hnd.1 (keysOf_sweep_subset hmem)
    · rw [lookupName, if_neg h]
      have htl := ih hnd.2
      cases hc : p.current with
      | true =>
        rw [show sweep ((k, p) :: tl) = (k, p) :: sweep tl from by
          simp [sweep, List.filter_cons, hc]]
        rw [lookupName, if_neg h]
        exact htl
      | false =>
        rw [show sweep ((k, p) :: tl) = sweep tl from by
          simp [sweep, List.filter_cons, hc]]
        exact htl

theorem mem_addCategory (L lbl : String) (cats : List String) :
    lbl ∈ addCategory L cats ↔ (lbl = L ∨ lbl ∈ cats) := by
  by_cases hmem : L ∈ cats
  · simp only [addCategory, if_pos hmem]
    constructor
    · intro h
      exact Or.inr h
    · rintro (rfl | h)
      · exact hmem
      · exact h
  · rw [addCategory, if_neg hmem, List.mem_append, List.mem_singleton, or_comm]

theorem mem_netOne_categories (L : String) (c : Bool) (o : Option SavedPlace) (lbl : String) :
    lbl ∈ (netOne L c o).categories ↔
      (lbl = L ∨ ∃ q, o = some q ∧ lbl ∈ q.categories) := by
  cases o with
  | none => simp [netOne, freshPlace]
  | some q =>
    simp only [netOne, updPlace, Option.some.injEq]
    rw [mem_addCategory]
    simp

theorem applyBatches_categories :
    ∀ (bs : List SourceBatch) (o : Option SavedPlace) (m : String) (p : SavedPlace),
      applyBatches m o bs = some p →
      ∀ lbl, lbl ∈ p.categories ↔
        ((∃ q, o = some q ∧ lbl ∈ q.categories) ∨
          ∃ b ∈ bs, b.listLabel = lbl ∧ lastObs m b.entries ≠ none) := by
  intro bs
  induction bs with
  | nil =>
    intro o m p h lbl
    cases o with
    | none => simp [applyBatches] at h
    | some q =>
      simp only [applyBatches, Option.some.injEq] at h
      subst h
      simp
  | cons b rest ih =>
    intro o m p h lbl
    simp only [applyBatches] at h
    cases hlast : lastObs m b.entries with
    | none =>
      rw [hlast] at h
      rw [ih _ m p h lbl]
      constructor
      · rintro (h1 | ⟨b', hb', hlbl, hobs⟩)
        · exact Or.inl h1
        · exact Or.inr ⟨b', List.mem_cons_of_mem _ hb', hlbl, hobs⟩
      · rintro (h1 | ⟨b', hb', hlbl, hobs⟩)
        · exact Or.inl h1
        · rcases List.mem_cons.mp hb' with rfl | hmem
          · exact absurd hlast hobs
          · exact Or.inr ⟨b', hmem, hlbl, hobs⟩
    | some c =>
      rw [hlast] at h
      rw [ih _ m p h lbl]
      constructor
      · rintro (⟨q, hq, hlblq⟩ | ⟨b', hb', hlbl, hobs⟩)
        · injection hq with hq
          subst hq
          rcases (mem_netOne_categories _ _ _ _).mp hlblq with rfl | ⟨q', hq', hlq⟩
          · exact Or.inr ⟨b, List.mem_cons_self _ _, rfl, by simp [hlast]⟩
          · exact Or.inl ⟨q', hq', hlq⟩
        · exact Or.inr ⟨b', List.mem_cons_of_mem _ hb', hlbl, hobs⟩
      · rintro (⟨q, hq, hlblq⟩ | ⟨b', hb', hlbl, hobs⟩)
        · exact Or.inl ⟨netOne b.listLabel c o, rfl,
            (mem_netOne_categories _ _ _ _).mpr (Or.inr ⟨q, hq, hlblq⟩)⟩
        · rcases List.mem_cons.mp hb' with rfl | hmem
          · exact Or.inl ⟨netOne b'.listLabel c o, rfl,
              (mem_netOne_categories _ _ _ _).mpr (Or.inl hlbl.symm)⟩
          · exact Or.inr ⟨b', hmem, hlbl, hobs⟩

/-- Claim C5 (amended): permuting a run's batch sequence leaves the final
(post-sweep) registry content the same up to ordering and the documented
last-write-wins on `permanentlyClosed`: the key sets agree, and every
surviving place has the same `current` flag, address, coordinates, and
the same *set* of category labels.  (The full claim is refuted below:
insertion order of keys and of category labels does depend on merge
order.) -/
theorem runReconcile_perm_equiv (reg : Registry) (bs1 bs2 : List SourceBatch)
    (hperm : bs1.Perm bs2) (hnd : (keysOf reg).Nodup) :
    (∀ n, n ∈ keysOf (runReconcile reg bs1) ↔ n ∈ keysOf (runReconcile reg bs2)) ∧
      ∀ n p q, lookupName n (runReconcile reg bs1) = some p →
        lookupName n (runReconcile reg bs2) = some q →
        p.current = q.current ∧ p.address = q.address ∧ p.latLng = q.latLng ∧
          ∀ lbl, (lbl ∈ p.categories ↔ lbl ∈ q.categories) := by
  have hnd0 : (keysOf (resetCurrent reg)).Nodup := by
    rw [keysOf_resetCurrent]
    exact hnd
  have extract : ∀ (bs : List SourceBatch) (p : SavedPlace) (n : String),
      lookupName n (runReconcile reg bs) = some p →
      lookupName n (bs.foldl mergeBatch (resetCurrent reg)) = some p ∧
        p.current = true := by
    intro bs p n hp
    rw [runReconcile, lookupName_sweep (nodup_keysOf_foldl_mergeBatch bs _ hnd0)] at hp
    cases ho : lookupName n (bs.foldl mergeBatch (resetCurrent reg)) with
    | none =>
      rw [ho] at hp
      simp at hp
    | some r =>
      rw [ho] at hp
      by_cases hcur : r.current = true
      · simp only [Option.some_bind, hcur, if_true] at hp
        injection hp with hp
        subst hp
        exact ⟨rfl, hcur⟩
      · simp [hcur] at hp
  constructor
  · intro n
    rw [keysOf_runReconcile_iff, keysOf_runReconcile_iff]
    constructor
    · rintro ⟨hne, b, hb, hc⟩
      exact ⟨hne, b, hperm.mem_iff.mp hb, hc⟩
    · rintro ⟨hne, b, hb, hc⟩
      exact ⟨hne, b, hperm.mem_iff.mpr hb, hc⟩
  · intro n p q hp hq
    obtain ⟨hp1, hp2⟩ := extract bs1 p n hp
    obtain ⟨hq1, hq2⟩ := extract bs2 q n hq
    have happ1 : applyBatches n (lookupName n (resetCurrent reg)) bs1 = some p := by
      rw [← lookupName_foldl_mergeBatch]
      exact hp1
    have happ2 : applyBatches n (lookupName n (resetCurrent reg)) bs2 = some q := by
      rw [← lookupName_foldl_mergeBatch]
      exact hq1
    obtain ⟨ha1, hl1⟩ := applyBatches_address bs1 _ n p happ1
    obtain ⟨ha2, hl2⟩ := applyBatches_address bs2 _ n q happ2
    refine ⟨by rw [hp2, hq2], by rw [ha1, ha2], by rw [hl1, hl2], ?_⟩
    intro lbl
    rw [applyBatches_categories bs1 _ n p happ1 lbl,
      applyBatches_categories bs2 _ n q happ2 lbl]
    constructor
    · rintro (h1 | ⟨b, hb, hlbl, hobs⟩)
      · exact Or.inl h1
      · exact Or.inr ⟨b, hperm.mem_iff.mp hb, hlbl, hobs⟩
    · rintro (h1 | ⟨b, hb, hlbl, hobs⟩)
      · exact Or.inl h1
      · exact Or.inr ⟨b, hperm.mem_iff.mpr hb, hlbl, hobs⟩

/-- Witness for the amended C5 at a concrete registry and batch pair. -/
theorem runReconcile_perm_equiv_witness :
    ([⟨"S1", [("X", false)]⟩, ⟨"S2", [("X", false)]⟩] : List SourceBatch).Perm
        [⟨"S2", [("X", false)]⟩, ⟨"S1", [("X", false)]⟩] ∧
      (keysOf ([] : Registry)).Nodup ∧
      ∀ n, n ∈ keysOf (runReconcile []
            [⟨"S1", [("X", false)]⟩, ⟨"S2", [("X", false)]⟩]) ↔
          n ∈ keysOf (runReconcile []
            [⟨"S2", [("X", false)]⟩, ⟨"S1", [("X", false)]⟩]) :=
  ⟨by decide, by decide, (runReconcile_perm_equiv _ _ _ (by decide) (by decide)).1⟩

/-- Counterexample to C5 as stated: with an empty starting registry and
two batches that both observe `"X"` (agreeing that it is open, so the
permitted `permanentlyClosed` tie-break plays no role), merging in the
two orders yields registries whose content differs — the category list
of `"X"` is `["S1", "S2"]` in one order and `["S2", "S1"]` in the
other. -/
theorem runReconcile_order_sensitive :
    runReconcile [] [⟨"S1", [("X", false)]⟩, ⟨"S2", [("X", false)]⟩] ≠
        runReconcile [] [⟨"S2", [("X", false)]⟩, ⟨"S1", [("X", false)]⟩] ∧
      (lookupName "X" (runReconcile []
          [⟨"S1", [("X", false)]⟩, ⟨"S2", [("X", false)]⟩])).map
          SavedPlace.permanentlyClosed =
        (lookupName "X" (runReconcile []
          [⟨"S2", [("X", false)]⟩, ⟨"S1", [("X", false)]⟩])).map
          SavedPlace.permanentlyClosed := by
  have hA : runReconcile [] [⟨"S1", [("X", false)]⟩, ⟨"S2", [("X", false)]⟩] =
      [("X", { current := true, address := none, latLng := none,
               categories := ["S1", "S2"], permanentlyClosed := false })] := rfl
  have hB : runReconcile [] [⟨"S2", [("X", false)]⟩, ⟨"S1", [("X", false)]⟩] =
      [("X", { current := true, address := none, latLng := none,
               categories := ["S2", "S1"], permanentlyClosed := false })] := rfl
  constructor
  · intro h
    have h2 := congrArg (fun l : Registry => l.map fun e => e.2.categories) h
    rw [hA, hB] at h2
    simp only [List.map_cons, List.map_nil] at h2
    exact absurd h2 (by decide)
  · rw [hA, hB]
    rfl

/-! ### Per-source retry and orchestration (src/midpoint.ts second
module, lines 423-449 and 797-817)

The fallible browser work inside `processUrlInTab` is abstracted as an
oracle from attempt number to either a scraped result or an error; each
attempt is an independent full re-fetch.  The wrapper's `for` loop is
modelled with the number of remaining loop iterations as fuel, and the
`console` output as a list of the logged lines. -/

/-- The TS return shape of `processUrlInTab`: scraped places (each
labeled through its `categories`) and the per-list closed-place index. -/
structure TabResult where
  savedPlaces : Registry
  permanentlyClosedPlaces : List (String × List String)

/-- The degraded result `{ savedPlaces: {}, permanentlyClosedPlaces: {} }`
returned after all retries fail (src/midpoint.ts lines 442 and 448). -/
def emptyTabResult : TabResult := ⟨[], []⟩

/-- Log line of src/midpoint.ts line 433. -/
def attemptMsg (attempt maxRetries : Nat) (url : String) : String :=
  "[Tab] Attempt " ++ toString attempt ++ "/" ++ toString maxRetries ++ " for " ++ url

/-- Log line of src/midpoint.ts lines 436-439. -/
def attemptFailMsg (attempt : Nat) (url : String) (err : String) : String :=
  "[Tab] Attempt " ++ toString attempt ++ " failed for " ++ url ++ ": " ++ err

/-- Log line of src/midpoint.ts line 441. -/
def allFailedMsg (maxRetries : Nat) (url : String) : String :=
  "[Tab] All " ++ toString maxRetries ++ " attempts failed for " ++ url ++
    ", returning empty result"

/-- The `for (let attempt = 1; attempt <= maxRetries; attempt++)` loop of
`processUrlInTabWithRetry` (src/midpoint.ts lines 431-447): on success
return the tab's result; on failure log, and either degrade to the empty
result (last attempt) or retry after the delay.  Returns the result, the
log, and the number of attempts made; the fuel `rem` counts the loop
iterations left, so `rem = 0` is the fallback return at line 448. -/
def retryLoop (fetch : Nat → Except String TabResult) (url : String)
    (maxRetries : Nat) : Nat → Nat → TabResult × List String × Nat
  | _, 0 => (emptyTabResult, [], 0)
  | attempt, rem + 1 =>
    match fetch attempt with
    | Except.ok r => (r, [attemptMsg attempt maxRetries url], 1)
    | Except.error e =>
      if attempt = maxRetries then
        (emptyTabResult,
          [attemptMsg attempt maxRetries url, attemptFailMsg attempt url e,
            allFailedMsg maxRetries url], 1)
      else
        let rest := retryLoop fetch url maxRetries (attempt + 1) rem
        (rest.1,
          attemptMsg attempt maxRetries url :: attemptFailMsg attempt url e :: rest.2.1,
          rest.2.2 + 1)

/-- src/midpoint.ts lines 423-449, `processUrlInTabWithRetry` (TS default
`maxRetries = 2`). -/
def processUrlInTabWithRetry (fetch : Nat → Except String TabResult) (url : String)
    (maxRetries : Nat := 2) : TabResult × List String × Nat :=
  retryLoop fetch url maxRetries 1 maxRetries

/-- The orchestration (src/midpoint.ts lines 797-817): parallel mode's
`Promise.all(urlsToScrape.map(url => limit(() => …)))` resolves in input
order, and sequential mode pushes results in the same order, so both
yield the per-URL retry results in the order of `urlsToScrape`. -/
def scrapeAll (fetchFor : String → Nat → Except String TabResult) (urls : List String)
    (maxRetries : Nat) : List (TabResult × List String × Nat) :=
  urls.map fun url => processUrlInTabWithRetry (fetchFor url) url maxRetries

theorem retryLoop_attempts_le (fetch : Nat → Except String TabResult)
    (url : String) (maxRetries : Nat) :
    ∀ (rem attempt : Nat), (retryLoop fetch url maxRetries attempt rem).2.2 ≤ rem := by
  intro rem
  induction rem with
  | zero => intro attempt; exact Nat.le_refl 0
  | succ n ih =>
    intro attempt
    simp only [retryLoop]
    cases hf : fetch attempt with
    | ok r => simp
    | error e =>
      by_cases hl : attempt = maxRetries
      · simp [hl]
      · simp only [hl, if_false]
        exact Nat.succ_le_succ (ih (attempt + 1))

theorem retryLoop_all_fail (fetch : Nat → Except String TabResult)
    (url : String) (maxRetries : Nat)
    (hfail : ∀ k, ∃ e, fetch k = Except.error e) :
    ∀ (rem attempt : Nat), attempt + rem = maxRetries + 1 → 1 ≤ rem →
      (retryLoop fetch url maxRetries attempt rem).1 = emptyTabResult ∧
        allFailedMsg maxRetries url ∈ (retryLoop fetch url maxRetries attempt rem).2.1 ∧
        (retryLoop fetch url maxRetries attempt rem).2.2 = rem := by
  intro rem
  induction rem with
  | zero =>
    intro attempt _ h1
    exact absurd h1 (by norm_num)
  | succ n ih =>
    intro attempt hsum _
    obtain ⟨e, hf⟩ := hfail attempt
    simp only [retryLoop, hf]
    by_cases hl : attempt = maxRetries
    · have hn : n = 0 := by omega
      subst hn
      rw [if_pos hl]
      refine ⟨rfl, ?_, rfl⟩
      exact List.mem_cons_of_mem _ (List.mem_cons_of_mem _ (List.mem_cons_self _ _))
    · have h1n : 1 ≤ n := by omega
      obtain ⟨ih1, ih2, ih3⟩ := ih (attempt + 1) (by omega) h1n
      simp only [hl, if_false]
      refine ⟨ih1, ?_, ?_⟩
      · exact List.mem_cons_of_mem _ (List.mem_cons_of_mem _ ih2)
      · show (retryLoop fetch url maxRetries (attempt + 1) n).2.2 + 1 = n + 1
        rw [ih3]

/-- Claim C6: a source whose fetch fails on every attempt is retried for
exactly `maxRetries` independent full attempts (and no oracle ever gets
more than `maxRetries`), after the last failure it degrades to the empty
result, the failure is logged, and the orchestration is a pointwise map
over the URL list, so the failing source cannot abort or lose a sibling:
changing the failing source's oracle leaves every other source's entry
unchanged. -/
theorem processUrlInTabWithRetry_degrades (fetch : Nat → Except String TabResult)
    (url : String) (maxRetries : Nat)
    (hfail : ∀ k, ∃ e, fetch k = Except.error e) (h1 : 1 ≤ maxRetries) :
    (processUrlInTabWithRetry fetch url maxRetries).1 = emptyTabResult ∧
      allFailedMsg maxRetries url ∈ (processUrlInTabWithRetry fetch url maxRetries).2.1 ∧
      (processUrlInTabWithRetry fetch url maxRetries).2.2 = maxRetries ∧
      (∀ (f : Nat → Except String TabResult) (u : String) (m : Nat),
        (processUrlInTabWithRetry f u m).2.2 ≤ m) ∧
      ∀ (fetchFor fetchFor' : String → Nat → Except String TabResult) (urls : List String),
        (∀ u, u ≠ url → fetchFor' u = fetchFor u) →
        ∀ (i : Nat) (u' : String), urls.get? i = some u' → u' ≠ url →
          (scrapeAll fetchFor' urls maxRetries).get? i =
            (scrapeAll fetchFor urls maxRetries).get? i := by
  obtain ⟨hres, hlog, hcnt⟩ :=
    retryLoop_all_fail fetch url maxRetries hfail maxRetries 1 (by omega) h1
  refine ⟨hres, hlog, hcnt, ?_, ?_⟩
  · intro f u m
    exact retryLoop_attempts_le f u m m 1
  · intro fetchFor fetchFor' urls hagree i u' hget hne
    simp only [scrapeAll]
    rw [List.get?_map, List.get?_map, hget]
    show some (processUrlInTabWithRetry (fetchFor' u') u' maxRetries) =
      some (processUrlInTabWithRetry (fetchFor u') u' maxRetries)
    rw [hagree u' hne]

/-- Witness for C6 with a concrete always-failing oracle. -/
theorem processUrlInTabWithRetry_degrades_witness :
    (∀ k : Nat, ∃ e,
        (fun _ : Nat => (Except.error "network" : Except String TabResult)) k =
          Except.error e) ∧
      1 ≤ 2 ∧
      (processUrlInTabWithRetry (fun _ => Except.error "network") "u1" 2).1 =
        emptyTabResult :=
  ⟨fun _ => ⟨"network", rfl⟩, by norm_num,
    (processUrlInTabWithRetry_degrades _ _ _ (fun _ => ⟨"network", rfl⟩) (by norm_num)).1⟩

/-! ### Controller error handling (src/processPlaces.ts lines 255-433;
src/midpoint.ts second module, lines 789-966)

The main IIFE's try-block is a sequence of phases over the in-memory
`savedPlaces` (scrape+merge, sweep, geocode, save, midpoint); each phase
either yields the next registry state or raises.  The catch block
(src/processPlaces.ts lines 425-428; src/midpoint.ts lines 958-961) logs
the error and calls `savePlacesToDisk(placesFilePath, savedPlaces)` with
the current in-memory state — and does not rethrow, so the IIFE's
promise resolves normally. -/

/-- Run phases in order until one fails, returning the state reached and
the error, if any. -/
def runPhases : List (Registry → Except String Registry) → Registry →
    Registry × Option String
  | [], reg => (reg, none)
  | ph :: rest, reg =>
    match ph reg with
    | Except.ok next => runPhases rest next
    | Except.error e => (reg, some e)

/-- Observable outcome of one controller run: the in-memory state when
the try-block ended, the registry passed to the catch-block save (if the
catch ran), and the error surfaced to the caller (always `none`: the
catch block swallows it). -/
structure ControlOutcome where
  finalState : Registry
  errorSave : Option Registry
  propagated : Option String

/-- The try/catch skeleton of the main IIFE: on success the catch does
not run; on error the catch saves the current in-memory state and the
error is swallowed, never rethrown. -/
def mainControl (phases : List (Registry → Except String Registry)) (init : Registry) :
    ControlOutcome :=
  match runPhases phases init with
  | (reg, none) => ⟨reg, none, none⟩
  | (reg, some _) => ⟨reg, some reg, none⟩

theorem runPhases_append :
    ∀ (pre post : List (Registry → Except String Registry)) (init : Registry),
      runPhases (pre ++ post) init =
        match runPhases pre init with
        | (reg, none) => runPhases post reg
        | (reg, some e) => (reg, some e) := by
  intro pre
  induction pre with
  | nil => intro post init; rfl
  | cons ph rest ih =>
    intro post init
    simp only [List.cons_append, runPhases]
    cases ph init with
    | ok next => exact ih post next
    | error e => rfl

/-- Claim C9 (amended): when any phase fails, the controller persists the
registry state accumulated by the completed phases — the catch-block
save receives exactly the in-memory state at the failure point — but the
failure is then swallowed (logged), not propagated to the caller. -/
theorem mainControl_saves_on_error
    (pre post : List (Registry → Except String Registry))
    (f : Registry → Except String Registry) (init reg1 : Registry) (e : String)
    (hpre : runPhases pre init = (reg1, none)) (hf : f reg1 = Except.error e) :
    mainControl (pre ++ f :: post) init =
      { finalState := reg1, errorSave := some reg1, propagated := none } := by
  rw [mainControl, runPhases_append, hpre]
  simp only [runPhases, hf]

/-- Counterexample to C9 as stated: at a concrete failing run the
controller does save the in-memory registry, but `propagated = none` —
the catch block swallows the failure instead of propagating it to the
caller (no rethrow at src/processPlaces.ts lines 425-428 or
src/midpoint.ts lines 958-961). -/
theorem mainControl_swallows_error :
    (runPhases [fun _ => Except.error "boom"] []).2 = some "boom" ∧
      (mainControl [fun _ => Except.error "boom"] []).errorSave = some [] ∧
      (mainControl [fun _ => Except.error "boom"] []).propagated = none :=
  ⟨rfl, rfl, rfl⟩

/-- Witness for the amended C9 at a concrete phase list. -/
theorem mainControl_saves_on_error_witness :
    runPhases [fun reg => Except.ok reg] ([] : Registry) = ([], none) ∧
      (fun _ : Registry => (Except.error "boom" : Except String Registry)) [] =
        Except.error "boom" ∧
      mainControl [fun reg => Except.ok reg, fun _ => Except.error "boom"] [] =
        { finalState := [], errorSave := some [], propagated := none } :=
  ⟨rfl, rfl,
    mainControl_saves_on_error [fun reg => Except.ok reg] []
      (fun _ => Except.error "boom") [] [] "boom" rfl rfl⟩

/-! ### Coordinate deduplication (src/processPlaces.ts lines 387-394;
src/midpoint.ts second module, lines 933-940)

The code builds string keys
`` `${coord.lat.toFixed(6)},${coord.lng.toFixed(6)}` ``, deduplicates
them with `new Set(...)` (which keeps first occurrences in insertion
order), and parses each surviving key back with
`str.split(',').map(Number)`.  JS strings are modelled here as lists of
characters so the string operations are faithful.
`Number.prototype.toFixed(6)` follows ECMA-262 for the magnitudes the
pipeline feeds it (|x| < 10²¹): a leading '-' is emitted when `x < 0`
and `x` is replaced by `-x`; then `n` is the integer with `n/10⁶`
closest to `x`, ties to the larger `n` (round half up), printed with
exactly six decimals. -/

/-- The decimal digit characters. -/
def digitChar : Nat → Char
  | 0 => '0'
  | 1 => '1'
  | 2 => '2'
  | 3 => '3'
  | 4 => '4'
  | 5 => '5'
  | 6 => '6'
  | 7 => '7'
  | 8 => '8'
  | _ => '9'

/-- Numeric value of a decimal digit character (only digits reach it). -/
def charVal : Char → Nat
  | '1' => 1
  | '2' => 2
  | '3' => 3
  | '4' => 4
  | '5' => 5
  | '6' => 6
  | '7' => 7
  | '8' => 8
  | '9' => 9
  | _ => 0

/-- Decimal digit string of a natural number, most significant first
(JS integer-to-string). -/
def natDigits (n : Nat) : List Char :=
  if h : n < 10 then [digitChar n]
  else natDigits (n / 10) ++ [digitChar (n % 10)]
decreasing_by
  exact Nat.div_lt_self (by omega) (by norm_num)

/-- Value of a decimal digit string, most significant first. -/
def natOfDigits (s : List Char) : Nat :=
  s.foldl (fun acc c => 10 * acc + charVal c) 0

/-- The digit part of `toFixed(6)` applied to the scaled rounded
magnitude `m = round(|x|·10⁶)`: integer digits, '.', and the fraction
padded to six digits with leading zeros. -/
def fixedDigits (m : Nat) : List Char :=
  natDigits (m / 1000000) ++ '.' ::
    (List.replicate (6 - (natDigits (m % 1000000)).length) '0' ++
      natDigits (m % 1000000))

/-- ECMA-262 `Number.prototype.toFixed(6)` over exact reals (for
|x| < 10²¹, the only regime the pipeline uses). -/
noncomputable def toFixed6 (x : ℝ) : List Char :=
  (if x < 0 then ['-'] else []) ++ fixedDigits (round (|x| * 1000000)).toNat

/-- The dedup key `` `${coord.lat.toFixed(6)},${coord.lng.toFixed(6)}` ``. -/
noncomputable def coordKey (c : LatLng) : List Char :=
  toFixed6 c.lat ++ ',' :: toFixed6 c.lng

/-- JS `new Set(...)` insertion-order deduplication: keep the first
occurrence of each element. -/
def dedupAux {α : Type} [DecidableEq α] (seen : List α) : List α → List α
  | [] => []
  | k :: rest => if k ∈ seen then dedupAux seen rest else k :: dedupAux (k :: seen) rest

/-- `Array.from(new Set(l))`. -/
def dedupFirst {α : Type} [DecidableEq α] (l : List α) : List α := dedupAux [] l

/-- JS `String.prototype.split(sep)` for a one-character separator. -/
def splitOnChar (sep : Char) : List Char → List (List Char)
  | [] => [[]]
  | c :: rest =>
    let r := splitOnChar sep rest
    if c = sep then [] :: r
    else
      match r with
      | [] => [[c]]
      | h :: t => (c :: h) :: t

/-- JS `Number(...)` on an unsigned decimal string of the shape this
pipeline produces (digits, optionally '.', digits). -/
noncomputable def parseUnsigned (s : List Char) : ℝ :=
  match splitOnChar '.' s with
  | [i] => natOfDigits i
  | i :: f :: _ => (natOfDigits i : ℝ) + (natOfDigits f : ℝ) / 10 ^ f.length
  | [] => 0

/-- JS `Number(...)` on the decimal strings this pipeline produces
(optional leading '-', then an unsigned decimal). -/
noncomputable def parseNumber (s : List Char) : ℝ :=
  match s with
  | '-' :: rest => -(parseUnsigned rest)
  | _ => parseUnsigned s

/-- `const [lat, lng] = str.split(',').map(Number); return { lat, lng }`
(src/processPlaces.ts lines 391-393); the produced keys always have
exactly one comma, so the fallback arm is never reached for them. -/
noncomputable def parseCoordKey (s : List Char) : LatLng :=
  match (splitOnChar ',' s).map parseNumber with
  | la :: ln :: _ => ⟨la, ln⟩
  | _ => ⟨0, 0⟩

/-- src/processPlaces.ts lines 387-394 (identical code at
src/midpoint.ts lines 933-940): deduplicate coordinates by their
`toFixed(6)` string keys and re-parse the surviving keys. -/
noncomputable def uniqueCoordinates (coords : List LatLng) : List LatLng :=
  (dedupFirst (coords.map coordKey)).map parseCoordKey

/-- The value `toFixed(6)`-then-`Number` assigns to `x`: its 6-decimal
rounding, with the sign of the source value. -/
noncomputable def jsRound6 (x : ℝ) : ℝ :=
  (if x < 0 then -1 else 1) * ((round (|x| * 1000000)).toNat : ℝ) / 1000000

theorem digitChar_isDigit (d : Nat) : (digitChar d).isDigit = true := by
  unfold digitChar
  split <;> decide

theorem charVal_digitChar (d : Nat) (h : d < 10) : charVal (digitChar d) = d := by
  interval_cases d <;> rfl

theorem mem_natDigits_isDigit (n : Nat) : ∀ c ∈ natDigits n, c.isDigit = true := by
  induction n using Nat.strong_induction_on with
  | _ n ih =>
    intro c hc
    by_cases h : n < 10
    · unfold natDigits at hc
      rw [dif_pos h] at hc
      rw [List.mem_singleton.mp hc]
      exact digitChar_isDigit n
    · unfold natDigits at hc
      rw [dif_neg h] at hc
      rcases List.mem_append.mp hc with h1 | h2
      · exact ih (n / 10) (Nat.div_lt_self (by omega) (by norm_num)) c h1
      · rw [List.mem_singleton.mp h2]
        exact digitChar_isDigit _

theorem natDigits_head_digit (n : Nat) :
    ∃ c t, natDigits n = c :: t ∧ c.isDigit = true := by
  induction n using Nat.strong_induction_on with
  | _ n ih =>
    by_cases h : n < 10
    · refine ⟨digitChar n, [], ?_, digitChar_isDigit n⟩
      unfold natDigits
      rw [dif_pos h]
    · obtain ⟨c, t, heq, hd⟩ := ih (n / 10) (Nat.div_lt_self (by omega) (by norm_num))
      refine ⟨c, t ++ [digitChar (n % 10)], ?_, hd⟩
      unfold natDigits
      rw [dif_neg h, heq, List.cons_append]

theorem natOfDigits_natDigits (n : Nat) : natOfDigits (natDigits n) = n := by
  induction n using Nat.strong_induction_on with
  | _ n ih =>
    by_cases h : n < 10
    · unfold natDigits
      rw [dif_pos h]
      show 10 * 0 + charVal (digitChar n) = n
      rw [charVal_digitChar n h]
      omega
    · unfold natDigits
      rw [dif_neg h, natOfDigits, List.foldl_append]
      show 10 * natOfDigits (natDigits (n / 10)) + charVal (digitChar (n % 10)) = n
      rw [ih (n / 10) (Nat.div_lt_self (by omega) (by norm_num)),
        charVal_digitChar _ (Nat.mod_lt _ (by norm_num))]
      omega

theorem natDigits_length_le (n : Nat) : ∀ (k : Nat), n < 10 ^ k → 1 ≤ k →
    (natDigits n).length ≤ k := by
  induction n using Nat.strong_induction_on with
  | _ n ih =>
    intro k hn hk
    by_cases h : n < 10
    · unfold natDigits
      rw [dif_pos h]
      simpa using hk
    · unfold natDigits
      rw [dif_neg h, List.length_append]
      have hk2 : 2 ≤ k := by
        by_contra hcon
        have hk1 : k = 1 := by omega
        subst hk1
        rw [pow_one] at hn
        exact h hn
      have hdiv : n / 10 < 10 ^ (k - 1) := by
        rw [Nat.div_lt_iff_lt_mul (by norm_num : 0 < 10)]
        calc n < 10 ^ k := hn
          _ = 10 ^ (k - 1) * 10 := by
              rw [← pow_succ]
              congr 1
              omega
      have hlen := ih (n / 10) (Nat.div_lt_self (by omega) (by norm_num))
        (k - 1) hdiv (by omega)
      simp only [List.length_cons, List.length_nil]
      omega

theorem natOfDigits_replicate_zero (k : Nat) (s : List Char) :
    natOfDigits (List.replicate k '0' ++ s) = natOfDigits s := by
  induction k with
  | zero => rfl
  | succ n ih =>
    rw [List.replicate_succ, List.cons_append]
    exact ih

theorem splitOnChar_of_not_mem (sep : Char) :
    ∀ (s : List Char), sep ∉ s → splitOnChar sep s = [s] := by
  intro s
  induction s with
  | nil => intro _; rfl
  | cons c rest ih =>
    intro h
    have hcne : ¬ c = sep := fun hc => h (hc ▸ List.mem_cons_self c rest)
    simp only [splitOnChar, ih (fun hm => h (List.mem_cons_of_mem _ hm)), if_neg hcne]

theorem splitOnChar_append (sep : Char) (b : List Char) :
    ∀ (a : List Char), sep ∉ a →
      splitOnChar sep (a ++ sep :: b) = a :: splitOnChar sep b := by
  intro a
  induction a with
  | nil =>
    intro _
    show splitOnChar sep (sep :: b) = [] :: splitOnChar sep b
    simp [splitOnChar]
  | cons c a' ih =>
    intro h
    have hcne : ¬ c = sep := fun hc => h (hc ▸ List.mem_cons_self c a')
    rw [List.cons_append]
    simp only [splitOnChar, ih (fun hm => h (List.mem_cons_of_mem _ hm)), if_neg hcne]

theorem fixedDigits_chars {c : Char} (m : Nat) (h : c ∈ fixedDigits m) :
    c.isDigit = true ∨ c = '.' := by
  rw [fixedDigits] at h
  rcases List.mem_append.mp h with h1 | h2
  · exact Or.inl (mem_natDigits_isDigit _ c h1)
  · rcases List.mem_cons.mp h2 with rfl | h3
    · exact Or.inr rfl
    · rcases List.mem_append.mp h3 with h4 | h5
      · rw [List.eq_of_mem_replicate h4]
        exact Or.inl (by decide)
      · exact Or.inl (mem_natDigits_isDigit _ c h5)

theorem comma_not_mem_toFixed6 (x : ℝ) : ',' ∉ toFixed6 x := by
  intro h
  rw [toFixed6] at h
  rcases List.mem_append.mp h with h1 | h2
  · by_cases hx : x < 0
    · rw [if_pos hx, List.mem_singleton] at h1
      exact absurd h1 (by decide)
    · rw [if_neg hx] at h1
      simp at h1
  · rcases fixedDigits_chars _ h2 with hd | hdot
    · exact absurd hd (by decide)
    · exact absurd hdot (by decide)

theorem splitOnChar_coordKey (c : LatLng) :
    splitOnChar ',' (coordKey c) = [toFixed6 c.lat, toFixed6 c.lng] := by
  rw [coordKey, splitOnChar_append ',' _ _ (comma_not_mem_toFixed6 _),
    splitOnChar_of_not_mem ',' _ (comma_not_mem_toFixed6 _)]

theorem parseUnsigned_fixedDigits (m : Nat) :
    parseUnsigned (fixedDigits m) = (m : ℝ) / 1000000 := by
  have hdot_int : '.' ∉ natDigits (m / 1000000) := fun hm =>
    absurd (mem_natDigits_isDigit _ _ hm) (by decide)
  have hdot_frac : '.' ∉ List.replicate (6 - (natDigits (m % 1000000)).length) '0' ++
      natDigits (m % 1000000) := by
    intro hm
    rcases List.mem_append.mp hm with h1 | h2
    · exact absurd (List.eq_of_mem_replicate h1) (by decide)
    · exact absurd (mem_natDigits_isDigit _ _ h2) (by decide)
  rw [parseUnsigned, fixedDigits, splitOnChar_append '.' _ _ hdot_int,
    splitOnChar_of_not_mem '.' _ hdot_frac]
  show (natOfDigits (natDigits (m / 1000000)) : ℝ) +
      (natOfDigits (List.replicate (6 - (natDigits (m % 1000000)).length) '0' ++
        natDigits (m % 1000000)) : ℝ) /
        10 ^ (List.replicate (6 - (natDigits (m % 1000000)).length) '0' ++
          natDigits (m % 1000000)).length = (m : ℝ) / 1000000
  have hlen : (List.replicate (6 - (natDigits (m % 1000000)).length) '0' ++
      natDigits (m % 1000000)).length = 6 := by
    rw [List.length_append, List.length_replicate]
    have h1 : m % 1000000 < 10 ^ 6 := by
      have h2 := Nat.mod_lt m (show 0 < 1000000 by norm_num)
      have h3 : (10 : ℕ) ^ 6 = 1000000 := by norm_num
      omega
    have := natDigits_length_le (m % 1000000) 6 h1 (by norm_num)
    omega
  rw [hlen, natOfDigits_natDigits, natOfDigits_replicate_zero, natOfDigits_natDigits]
  have h6 : ((10 : ℝ) ^ 6) = 1000000 := by norm_num
  rw [h6, eq_div_iff (by norm_num : (1000000 : ℝ) ≠ 0), add_mul,
    div_mul_cancel₀ _ (by norm_num : (1000000 : ℝ) ≠ 0)]
  norm_cast
  omega

theorem parseNumber_cons_of_ne (c : Char) (rest : List Char) (h : ¬ c = '-') :
    parseNumber (c :: rest) = parseUnsigned (c :: rest) := by
  rw [parseNumber.eq_def]
  split
  · next heq =>
    injection heq with h1 _
    exact absurd h1 h
  · rfl

theorem parseNumber_toFixed6_nonneg (x : ℝ) (hx : ¬ x < 0) :
    parseNumber (toFixed6 x) =
      ((round (|x| * 1000000)).toNat : ℝ) / 1000000 := by
  rw [toFixed6, if_neg hx, List.nil_append]
  obtain ⟨c, t, heq, hd⟩ :=
    natDigits_head_digit ((round (|x| * 1000000)).toNat / 1000000)
  rw [fixedDigits, heq, List.cons_append]
  rw [parseNumber_cons_of_ne c _ (fun hc => absurd hd (by rw [hc]; decide))]
  rw [← List.cons_append, ← heq, ← fixedDigits]
  exact parseUnsigned_fixedDigits _

theorem parseNumber_toFixed6_neg (x : ℝ) (hx : x < 0) :
    parseNumber (toFixed6 x) =
      -(((round (|x| * 1000000)).toNat : ℝ) / 1000000) := by
  rw [toFixed6, if_pos hx]
  show parseNumber ('-' :: fixedDigits (round (|x| * 1000000)).toNat) = _
  rw [show parseNumber ('-' :: fixedDigits (round (|x| * 1000000)).toNat) =
    -(parseUnsigned (fixedDigits (round (|x| * 1000000)).toNat)) from rfl]
  rw [parseUnsigned_fixedDigits]

theorem parseNumber_toFixed6 (x : ℝ) : parseNumber (toFixed6 x) = jsRound6 x := by
  by_cases hx : x < 0
  · rw [parseNumber_toFixed6_neg x hx, jsRound6, if_pos hx]
    ring
  · rw [parseNumber_toFixed6_nonneg x hx, jsRound6, if_neg hx]
    ring

theorem parseCoordKey_coordKey (c : LatLng) :
    parseCoordKey (coordKey c) = ⟨jsRound6 c.lat, jsRound6 c.lng⟩ := by
  rw [parseCoordKey, splitOnChar_coordKey]
  show (⟨parseNumber (toFixed6 c.lat), parseNumber (toFixed6 c.lng)⟩ : LatLng) = _
  rw [parseNumber_toFixed6, parseNumber_toFixed6]

theorem mem_dedupAux_subset {α : Type} [DecidableEq α] :
    ∀ (l seen : List α) (a : α), a ∈ dedupAux seen l → a ∈ l := by
  intro l
  induction l with
  | nil =>
    intro seen a h
    simp [dedupAux] at h
  | cons k rest ih =>
    intro seen a h
    rw [dedupAux] at h
    by_cases hk : k ∈ seen
    · rw [if_pos hk] at h
      exact List.mem_cons_of_mem _ (ih seen a h)
    · rw [if_neg hk] at h
      rcases List.mem_cons.mp h with rfl | h2
      · exact List.mem_cons_self _ _
      · exact List.mem_cons_of_mem _ (ih _ a h2)

theorem dedupAux_disjoint_nodup {α : Type} [DecidableEq α] :
    ∀ (l seen : List α),
      (∀ a ∈ dedupAux seen l, a ∉ seen) ∧ (dedupAux seen l).Nodup := by
  intro l
  induction l with
  | nil =>
    intro seen
    exact ⟨by simp [dedupAux], List.nodup_nil⟩
  | cons k rest ih =>
    intro seen
    rw [dedupAux]
    by_cases hk : k ∈ seen
    · rw [if_pos hk]
      exact ih seen
    · rw [if_neg hk]
      obtain ⟨hdisj, hnd⟩ := ih (k :: seen)
      constructor
      · intro a ha
        rcases List.mem_cons.mp ha with rfl | h2
        · exact hk
        · exact fun hs => hdisj a h2 (List.mem_cons_of_mem _ hs)
      · rw [List.nodup_cons]
        exact ⟨fun hks => hdisj k hks (List.mem_cons_self _ _), hnd⟩

theorem dedupFirst_nodup {α : Type} [DecidableEq α] (l : List α) :
    (dedupFirst l).Nodup := (dedupAux_disjoint_nodup l []).2

/-- Claim C10 (amended): every entry of the deduplicated list is the
`toFixed(6)`-then-`Number` rounding of some input coordinate (the
rounded values themselves, not the original place coordinates); the
surviving dedup keys are pairwise distinct; and the result — hence the
computed center — depends only on the sequence of `toFixed(6)` string
keys of the inputs.  (The original "no two entries are equal" is refuted
below: distinct keys `0.000000` and `-0.000000` parse to equal
numbers.) -/
theorem uniqueCoordinates_spec (coords : List LatLng) :
    (∀ e ∈ uniqueCoordinates coords, ∃ c ∈ coords,
        e.lat = jsRound6 c.lat ∧ e.lng = jsRound6 c.lng) ∧
      (dedupFirst (coords.map coordKey)).Nodup ∧
      ∀ coords' : List LatLng, coords.map coordKey = coords'.map coordKey →
        uniqueCoordinates coords = uniqueCoordinates coords' ∧
          geometricMedianOnSphere (uniqueCoordinates coords) =
            geometricMedianOnSphere (uniqueCoordinates coords') := by
  refine ⟨?_, dedupFirst_nodup _, ?_⟩
  · intro e he
    rw [uniqueCoordinates] at he
    rcases List.mem_map.mp he with ⟨key, hkey, rfl⟩
    have hkey2 : key ∈ coords.map coordKey := mem_dedupAux_subset _ _ _ hkey
    rcases List.mem_map.mp hkey2 with ⟨c, hc, rfl⟩
    exact ⟨c, hc, by rw [parseCoordKey_coordKey], by rw [parseCoordKey_coordKey]⟩
  · intro coords' h
    have heq : uniqueCoordinates coords = uniqueCoordinates coords' := by
      rw [uniqueCoordinates, uniqueCoordinates, h]
    exact ⟨heq, by rw [heq]⟩

/-- Counterexample to C10 as stated: the inputs `(1e-7, 0)` and
`(-1e-7, 0)` both round to `(0, 0)` at six decimals, but their
`toFixed(6)` keys differ (`0.000000,0.000000` vs `-0.000000,0.000000` —
ECMA `toFixed` emits the sign of a negative value even when the rounded
magnitude is zero), so the `Set` keeps both keys and the deduplicated
list contains two equal entries `(0, 0)` — refuting "no two entries of
the list are equal". -/
theorem uniqueCoordinates_minus_zero_duplicate :
    uniqueCoordinates [⟨1e-7, 0⟩, ⟨-(1e-7), 0⟩] = [⟨0, 0⟩, ⟨0, 0⟩] := by
  have hr1 : round (|(1e-7 : ℝ)| * 1000000) = 0 := by
    rw [abs_of_nonneg (by norm_num : (0 : ℝ) ≤ 1e-7)]
    rw [show (1e-7 : ℝ) * 1000000 = 1 / 10 by norm_num]
    rw [round_eq, show (1 : ℝ) / 10 + 1 / 2 = 3 / 5 by norm_num]
    rw [Int.floor_eq_iff]
    norm_num
  have hr2 : round (|(-(1e-7) : ℝ)| * 1000000) = 0 := by
    rw [abs_neg]
    exact hr1
  have hr0 : round (|(0 : ℝ)| * 1000000) = 0 := by
    norm_num
  have hnd0 : natDigits 0 = ['0'] := by
    unfold natDigits
    rw [dif_pos (by norm_num : (0 : ℕ) < 10)]
    rfl
  have hfd : fixedDigits 0 = ['0', '.', '0', '0', '0', '0', '0', '0'] := by
    have hz1 : (0 : ℕ) / 1000000 = 0 := by norm_num
    have hz2 : (0 : ℕ) % 1000000 = 0 := by norm_num
    rw [fixedDigits, hz1, hz2, hnd0]
    rfl
  have ht1 : toFixed6 (1e-7) = ['0', '.', '0', '0', '0', '0', '0', '0'] := by
    rw [toFixed6, if_neg (by norm_num : ¬ (1e-7 : ℝ) < 0), hr1]
    rw [show (0 : ℤ).toNat = 0 from rfl, List.nil_append]
    exact hfd
  have ht2 : toFixed6 (-(1e-7)) = '-' :: ['0', '.', '0', '0', '0', '0', '0', '0'] := by
    rw [toFixed6, if_pos (by norm_num : (-(1e-7) : ℝ) < 0), hr2]
    rw [show (0 : ℤ).toNat = 0 from rfl, hfd]
    rfl
  have ht0 : toFixed6 0 = ['0', '.', '0', '0', '0', '0', '0', '0'] := by
    rw [toFixed6, if_neg (by norm_num : ¬ (0 : ℝ) < 0), hr0]
    rw [show (0 : ℤ).toNat = 0 from rfl, List.nil_append]
    exact hfd
  have hk1 : coordKey ⟨1e-7, 0⟩ =
      ['0', '.', '0', '0', '0', '0', '0', '0', ',',
        '0', '.', '0', '0', '0', '0', '0', '0'] := by
    show toFixed6 (1e-7) ++ ',' :: toFixed6 0 = _
    rw [ht1, ht0]
    rfl
  have hk2 : coordKey ⟨-(1e-7), 0⟩ =
      '-' :: ['0', '.', '0', '0', '0', '0', '0', '0', ',',
        '0', '.', '0', '0', '0', '0', '0', '0'] := by
    show toFixed6 (-(1e-7)) ++ ',' :: toFixed6 0 = _
    rw [ht2, ht0]
    rfl
  have hu : parseUnsigned ['0', '.', '0', '0', '0', '0', '0', '0'] = 0 := by
    rw [parseUnsigned,
      show splitOnChar '.' ['0', '.', '0', '0', '0', '0', '0', '0'] =
        [['0'], ['0', '0', '0', '0', '0', '0']] from rfl]
    show ((natOfDigits ['0'] : ℝ)) +
      (natOfDigits ['0', '0', '0', '0', '0', '0'] : ℝ) /
        10 ^ (List.length ['0', '0', '0', '0', '0', '0']) = 0
    rw [show natOfDigits ['0'] = 0 from rfl,
      show natOfDigits ['0', '0', '0', '0', '0', '0'] = 0 from rfl,
      show List.length ['0', '0', '0', '0', '0', '0'] = 6 from rfl]
    norm_num
  have hz : parseNumber ['0', '.', '0', '0', '0', '0', '0', '0'] = 0 := by
    rw [parseNumber_cons_of_ne _ _ (by decide)]
    exact hu
  have hp1 : parseCoordKey
      ['0', '.', '0', '0', '0', '0', '0', '0', ',',
        '0', '.', '0', '0', '0', '0', '0', '0'] = ⟨0, 0⟩ := by
    rw [parseCoordKey,
      show splitOnChar ','
        ['0', '.', '0', '0', '0', '0', '0', '0', ',',
          '0', '.', '0', '0', '0', '0', '0', '0'] =
        [['0', '.', '0', '0', '0', '0', '0', '0'],
          ['0', '.', '0', '0', '0', '0', '0', '0']] from rfl]
    show (⟨parseNumber ['0', '.', '0', '0', '0', '0', '0', '0'],
      parseNumber ['0', '.', '0', '0', '0', '0', '0', '0']⟩ : LatLng) = ⟨0, 0⟩
    rw [hz]
  have hp2 : parseCoordKey
      ('-' :: ['0', '.', '0', '0', '0', '0', '0', '0', ',',
        '0', '.', '0', '0', '0', '0', '0', '0']) = ⟨0, 0⟩ := by
    rw [parseCoordKey,
      show splitOnChar ','
        ('-' :: ['0', '.', '0', '0', '0', '0', '0', '0', ',',
          '0', '.', '0', '0', '0', '0', '0', '0']) =
        [['-', '0', '.', '0', '0', '0', '0', '0', '0'],
          ['0', '.', '0', '0', '0', '0', '0', '0']] from rfl]
    show (⟨parseNumber ['-', '0', '.', '0', '0', '0', '0', '0', '0'],
      parseNumber ['0', '.', '0', '0', '0', '0', '0', '0']⟩ : LatLng) = ⟨0, 0⟩
    rw [show parseNumber ['-', '0', '.', '0', '0', '0', '0', '0', '0'] =
      -(parseUnsigned ['0', '.', '0', '0', '0', '0', '0', '0']) from rfl]
    rw [hu, hz, neg_zero]
  rw [uniqueCoordinates,
    show ([⟨1e-7, 0⟩, ⟨-(1e-7), 0⟩] : List LatLng).map coordKey =
      [['0', '.', '0', '0', '0', '0', '0', '0', ',',
          '0', '.', '0', '0', '0', '0', '0', '0'],
        '-' :: ['0', '.', '0', '0', '0', '0', '0', '0', ',',
          '0', '.', '0', '0', '0', '0', '0', '0']] from by
      rw [List.map_cons, List.map_cons, List.map_nil, hk1, hk2]]
  rw [show dedupFirst
      [['0', '.', '0', '0', '0', '0', '0', '0', ',',
          '0', '.', '0', '0', '0', '0', '0', '0'],
        '-' :: ['0', '.', '0', '0', '0', '0', '0', '0', ',',
          '0', '.', '0', '0', '0', '0', '0', '0']] =
      [['0', '.', '0', '0', '0', '0', '0', '0', ',',
          '0', '.', '0', '0', '0', '0', '0', '0'],
        '-' :: ['0', '.', '0', '0', '0', '0', '0', '0', ',',
          '0', '.', '0', '0', '0', '0', '0', '0']] from by decide]
  rw [List.map_cons, List.map_cons, List.map_nil, hp1, hp2]

/-- Witness for the amended C10 at a concrete input pair. -/
theorem uniqueCoordinates_spec_witness :
    ([⟨0, 0⟩] : List LatLng).map coordKey = ([⟨0, 0⟩] : List LatLng).map coordKey ∧
      uniqueCoordinates [⟨0, 0⟩] = uniqueCoordinates [⟨0, 0⟩] :=
  ⟨rfl, ((uniqueCoordinates_spec [⟨0, 0⟩]).2.2 [⟨0, 0⟩] rfl).1⟩

end PlacesMidpoint
